import Mathlib

set_option maxRecDepth 8000

/-!
Verification of the bandaged-cube graph drawer
(`paul_cube_bandaged_graph.py`).

The Python source is shallowly embedded below:
* the hex-signature decoder (`convert_hex_signature_to_bandage_array`) with
  its fixed 54-pair adjacency template and connected-component labelling,
* the list/auto decoder (`convert_cube_signature_to_bandage_array`),
* the degree-based node categorizer (`separate_nodes_by_categories`),
* the separator-line pass of the SVG cube renderer (`draw_svg_cube`),
* the edge stylist (`process_edges`),
* the legend/index builder (`draw_legend`).

Machine integers are `Nat`/`Int`; Python exceptions are `Option` failures.
The Python code computes connected components through
`networkx.connected_components`, whose component enumeration order is an
unspecified library artifact; here components are enumerated in a fixed
deterministic order.  All theorems below are invariant under the component
enumeration order, so nothing depends on this modelling choice.
-/

/-- The fixed 54-entry adjacency template of `generate_hex_signature_connections`:
for each layer `z` the row/column connections of the 3x3 slice, and for
`z < 2` the nine connections to the next layer, in exactly the order the
Python loops emit them. -/
def generate_hex_signature_connections : List ((Nat × Nat × Nat) × (Nat × Nat × Nat)) :=
  (List.range 3).flatMap fun z =>
    [((z,0,0),(z,0,1)), ((z,0,1),(z,0,2))]
      ++ ((List.range 2).flatMap fun y =>
        [((z,y,0),(z,y+1,0)), ((z,y,1),(z,y+1,1)), ((z,y,2),(z,y+1,2)),
         ((z,y+1,0),(z,y+1,1)), ((z,y+1,1),(z,y+1,2))])
      ++ (if z < 2 then (List.range 9).map (fun m => ((z,m/3,m%3),(z+1,m/3,m%3))) else [])

/-- Flat index of a cubie coordinate triple, matching `numpy.ravel` of a
C-ordered `(3,3,3)` array: `cube[x,y,z]` lands at position `9x+3y+z`. -/
def cubie_index (t : Nat × Nat × Nat) : Nat := t.1 * 9 + t.2.1 * 3 + t.2.2

/-- The adjacency template with coordinates flattened to cubie indices. -/
def template_edges : List (Nat × Nat) :=
  generate_hex_signature_connections.map fun p => (cubie_index p.1, cubie_index p.2)

/-- Bit `k` of the 54-character zero-padded binary rendering of the signature:
character `k` of `format(cube_int, "054b")` is bit `53 - k` of the integer
(for signatures below `2 ^ 54`, the only ones that pass the size guard). -/
def sig_bit (s : Nat) (k : Nat) : Bool := s.testBit (53 - k)

/-- The live connections of a signature: the template pairs whose bit is set,
mirroring `[m for k, m in enumerate(...) if signature_bin[k]]`. -/
def liveEdges (s : Nat) : List (Nat × Nat) :=
  (template_edges.enum.filter fun km => sig_bit s km.1).map Prod.snd

/-- Two cubies are adjacent when some live connection joins them (in either
orientation; the connection graph is undirected). -/
def adjb (s a b : Nat) : Bool :=
  (liveEdges s).any fun e => (e.1 == a && e.2 == b) || (e.1 == b && e.2 == a)

/-- Propositional form of `adjb`. -/
def Adj (s a b : Nat) : Prop := adjb s a b = true

/-- Reachability through live connections (reflexive-transitive closure of
the live adjacency).  Connected components of the live-connection graph are
the equivalence classes of `Reach`. -/
def Reach (s : Nat) : Nat → Nat → Prop := Relation.ReflTransGen (Adj s)

/-- A cubie is touched when it is an endpoint of some live connection; these
are exactly the nodes of `nx.Graph(connections)`. -/
def touchedb (s i : Nat) : Bool := (liveEdges s).any fun e => e.1 == i || e.2 == i

/-- One breadth step of component exploration: add every cubie joined by a
live connection to the current set. -/
def expandConn (s : Nat) (S : Finset Nat) : Finset Nat :=
  S ∪ ((liveEdges s).filterMap fun e =>
    if e.1 ∈ S then some e.2 else if e.2 ∈ S then some e.1 else none).toFinset

/-- The connected component of cubie `i` in the live-connection graph,
computed by saturating `expandConn` (28 steps always reach the fixed point:
there are only 27 cubies). -/
def reachSet (s i : Nat) : Finset Nat := (expandConn s)^[28] {i}

/-- The list of connected components of the live-connection graph
(`nx.connected_components`), enumerated in a fixed deterministic order;
the Python enumeration order is a networkx artifact and every property
proved below is independent of it. -/
def comps (s : Nat) : List (Finset Nat) :=
  (((List.range 27).filter fun i => touchedb s i).map (reachSet s)).dedup

/-- Label assignment of the component write-loop
(`for k, sg in enumerate(subgraphs): for node in sg: cube[node] = k + 1`):
a cubie in the component at position `k` receives label `k + 1`, cubies in
no component keep the `np.zeros` value `0`.  Components are pairwise
disjoint, so searching for the first component containing the cubie yields
the unique component index. -/
def cube_label_from (k i : Nat) : List (Finset Nat) → Nat
  | [] => 0
  | c :: rest => if i ∈ c then k + 1 else cube_label_from (k+1) i rest

/-- Label of cubie `i` given the component list. -/
def cube_label (cs : List (Finset Nat)) (i : Nat) : Nat := cube_label_from 0 i cs

/-- The flattened 27-entry bandage array produced from the components
(`cube.ravel()`). -/
def bandage_array (s : Nat) : List Nat := (List.range 27).map (cube_label (comps s))

/-- The size guard of `convert_hex_signature_to_bandage_array`, abstracted
over the decoding body: `len(signature_bin) > 54` holds exactly when the
signature integer needs more than 54 bits, i.e. when `2 ^ 54 ≤ s`, and the
guard fires before the adjacency template is consulted (the body is not
evaluated at all on oversized signatures). -/
def hex_decode_guarded (body : Nat → List Nat) (s : Nat) : Option (List Nat) :=
  if 2 ^ 54 ≤ s then none else some (body s)

/-- `convert_hex_signature_to_bandage_array` on the parsed signature integer:
`ValueError` is `none`. -/
def convert_hex_signature_to_bandage_array (s : Nat) : Option (List Nat) :=
  hex_decode_guarded bandage_array s

/-- Count of connected components of the subgraph induced by the signature's
set bits: the number of distinct components (`reachSet` images) over the
touched cubies. -/
def nComponents (s : Nat) : Nat :=
  (((Finset.range 27).filter fun i => touchedb s i = true).image (reachSet s)).card

/-- A walk certificate: consecutive entries are joined by live connections.
Used to exhibit connectivity of concrete signatures. -/
def walk_connected (s : Nat) : List Nat → Bool
  | [] => true
  | [_] => true
  | a :: b :: rest => adjb s a b && walk_connected s (b :: rest)

/-- A spanning walk of the full 27-cubie adjacency template, snaking through
each 3x3 layer and crossing layers through vertical template connections. -/
def w27 : List Nat :=
  [0, 1, 2, 5, 8, 7, 6, 3, 4, 13, 12, 9, 10, 11, 14, 17, 16, 15,
   24, 25, 26, 23, 20, 19, 18, 21, 22]

/-- The decoded array of the signature `0x3` (bits 52 and 53 set): its two
live connections chain cubies 24, 25, 26 into one block; all other cubies
stay unbandaged.  Used as a concrete decoding instance. -/
def arr_sig3 : List Nat :=
  [0, 0, 0, 0, 0, 0, 0, 0, 0, 0, 0, 0, 0, 0, 0, 0, 0, 0, 0, 0, 0, 0, 0, 0, 1, 1, 1]

/-! ### List-format decoding (`convert_cube_signature_to_bandage_array`) -/

/-- The separator characters of the Python regex `"\.|,|;| "`: period, comma,
semicolon and the space character (only the literal space, not the general
whitespace class). -/
def isSepChar (c : Char) : Bool := c == '.' || c == ',' || c == ';' || c == ' '

/-- Python `str.strip` whitespace (the ASCII whitespace characters). -/
def isPyWhitespace (c : Char) : Bool :=
  c == ' ' || c == '\t' || c == '\n' || c == '\r' || c == '\x0b' || c == '\x0c'

/-- Split at every single separator character, like `re.split` on a
one-character alternation: consecutive separators yield empty pieces. -/
def splitOnSeps (p : Char → Bool) : List Char → List Char → List (List Char)
  | [], cur => [cur.reverse]
  | c :: rest, cur =>
    if p c then cur.reverse :: splitOnSeps p rest [] else splitOnSeps p rest (c :: cur)

/-- `str.strip()`: drop leading and trailing whitespace. -/
def trimChars (l : List Char) : List Char :=
  ((l.dropWhile isPyWhitespace).reverse.dropWhile isPyWhitespace).reverse

/-- `[m for m in re.split("\.|,|;| ", cube_text) if m]` applied to the
stripped text: the nonempty pieces between separator characters. -/
def tokensOf (l : List Char) : List (List Char) :=
  (splitOnSeps isSepChar (trimChars l) []).filter fun m => !m.isEmpty

/-- Decimal digit value. -/
def digitVal? (c : Char) : Option Nat :=
  if '0' ≤ c ∧ c ≤ '9' then some (c.toNat - '0'.toNat) else none

/-- Accumulate decimal digits; any non-digit fails. -/
def parseDigitsAux : List Char → Nat → Option Nat
  | [], acc => some acc
  | c :: rest, acc =>
    match digitVal? c with
    | some d => parseDigitsAux rest (acc * 10 + d)
    | none => none

/-- A nonempty all-digit string as a number. -/
def parseDigits? (l : List Char) : Option Nat :=
  if l.isEmpty then none else parseDigitsAux l 0

/-- Python `int(token)`: surrounding whitespace is tolerated, an optional
sign precedes a nonempty digit run; anything else raises `ValueError`
(underscore digit grouping is not modelled: no claim involves it). -/
def parseInt? (tok : List Char) : Option Int :=
  match trimChars tok with
  | '-' :: rest => (parseDigits? rest).map fun n => -(n : Int)
  | '+' :: rest => (parseDigits? rest).map fun n => (n : Int)
  | t => (parseDigits? t).map fun n => (n : Int)

/-- Hexadecimal digit value (both cases). -/
def hexDigitVal? (c : Char) : Option Nat :=
  if '0' ≤ c ∧ c ≤ '9' then some (c.toNat - '0'.toNat)
  else if 'a' ≤ c ∧ c ≤ 'f' then some (c.toNat - 'a'.toNat + 10)
  else if 'A' ≤ c ∧ c ≤ 'F' then some (c.toNat - 'A'.toNat + 10)
  else none

/-- Accumulate hexadecimal digits; any non-hex-digit fails. -/
def parseHexAux : List Char → Nat → Option Nat
  | [], acc => some acc
  | c :: rest, acc =>
    match hexDigitVal? c with
    | some d => parseHexAux rest (acc * 16 + d)
    | none => none

/-- Python `int(token, 16)` for the hex signatures this program consumes:
surrounding whitespace tolerated, a nonempty run of hex digits. -/
def parseHexNat? (tok : List Char) : Option Nat :=
  let t := trimChars tok
  if t.isEmpty then none else parseHexAux t 0

/-- The comprehension `[int(m) for m in cube_text_items]`: parse every token,
a failing token raises (`none`). -/
def parseIntList? : List (List Char) → Option (List Int)
  | [] => some []
  | tok :: rest =>
    match parseInt? tok, parseIntList? rest with
    | some v, some vs => some (v :: vs)
    | _, _ => none

/-- `convert_cube_signature_to_bandage_array`: strip, split on the separator
characters, drop empty pieces; a single token is decoded as a hex signature,
exactly 27 tokens are parsed as integers, anything else (and any parse
failure, a propagated `ValueError`) fails.  The final `if not cube` guard of
the source is mirrored by the emptiness check (unreachable, as both branches
produce 27 entries). -/
def convert_cube_signature_to_bandage_array (cube_text : List Char) : Option (List Int) :=
  let items := tokensOf cube_text
  if items.length = 1 then
    match parseHexNat? (items.headD []) with
    | some n => (convert_hex_signature_to_bandage_array n).map fun l => l.map Int.ofNat
    | none => none
  else if items.length = 27 then
    match parseIntList? items with
    | some cube => if cube.isEmpty then none else some cube
    | none => none
  else none

/-- Modelled from the spec: the claim's tokenizer separator set is "`.`,
`,`, `;`, or whitespace" — the general whitespace class, unlike the
source's literal space.  Used only to state the claim being refuted. -/
def isClaimSepChar (c : Char) : Bool := c == '.' || c == ',' || c == ';' || c.isWhitespace

/-- Modelled from the spec: tokens under the claimed separator set. -/
def claimTokensOf (l : List Char) : List (List Char) :=
  (splitOnSeps isClaimSepChar (trimChars l) []).filter fun m => !m.isEmpty

/-- 27 numbers in which the first two are separated by a tab and the rest by
spaces: under the claimed whitespace splitting this is 27 tokens, under the
source's space-only splitting it is 26. -/
def tab_list_input : List Char :=
  '1' :: '\t' :: '1' :: (List.replicate 25 [' ', '1']).flatten

/-- 27 ones separated by spaces. -/
def list_sig_spaces : List Char := '1' :: (List.replicate 26 [' ', '1']).flatten

/-- 27 ones separated by periods. -/
def list_sig_dots : List Char := '1' :: (List.replicate 26 ['.', '1']).flatten

/-! ### Node categorizer (`separate_nodes_by_categories`) -/

/-- `dict.setdefault(v, list()).append(k)` accumulation step: append to the
first entry with the given key, or create a fresh entry at the end. -/
def upsertPair {α β : Type} [DecidableEq β] (key : β) (a : α) :
    List (β × List α) → List (β × List α)
  | [] => [(key, [a])]
  | (k, v) :: rest =>
    if k = key then (k, v ++ [a]) :: rest else (k, v) :: upsertPair key a rest

/-- `invert_tuple_list_to_dict`: the dictionary keyed by each pair's second
item whose values collect the first items, as an association list in Python
dict insertion order. -/
def invert_tuple_list_to_dict {α β : Type} [DecidableEq β] (l : List (α × β)) :
    List (β × List α) :=
  l.foldl (fun acc p => upsertPair p.2 p.1 acc) []

/-- The per-category node budgets (`max_number_nodes_per_category`). -/
structure CategoryCapacities where
  cube : Nat
  circle_with_label : Nat
  label_only : Nat
  circle : Nat

/-- The configured `MAX_NUMBER_OF_NODES_PER_CATEGORY`. -/
def MAX_NUMBER_OF_NODES_PER_CATEGORY : CategoryCapacities :=
  { cube := 10, circle_with_label := 50, label_only := 0, circle := 2500 }

/-- `node_categories_thresholds_names`, the priority order of the tiers. -/
def node_categories_thresholds_names : List String :=
  ["cube", "circle_with_label", "label_only", "circle"]

/-- The cumulative capacity thresholds accumulated by the source loop over
`node_categories_thresholds_names` (each name's budget added in turn). -/
def node_categories_thresholds (caps : CategoryCapacities) : List Nat :=
  [caps.cube,
   caps.cube + caps.circle_with_label,
   caps.cube + caps.circle_with_label + caps.label_only,
   caps.cube + caps.circle_with_label + caps.label_only + caps.circle]

/-- `category_k = len([m for m in node_categories_thresholds if m < total])`. -/
def category_k (thresholds : List Nat) (total : Nat) : Nat :=
  (thresholds.filter fun m => decide (m < total)).length

/-- Tier name for a computed index: the `IndexError` fallback is `"none"`. -/
def category_name (k : Nat) : String := node_categories_thresholds_names.getD k "none"

/-- Descending-degree order on `(degree, count)` pairs, the order of
`sorted(..., key=lambda m: m[0], reverse=True)`. -/
def degGE (a b : Nat × Nat) : Prop := b.1 ≤ a.1

instance : DecidableRel degGE := fun a b => Nat.decLe b.1 a.1

instance : IsTotal (Nat × Nat) degGE := ⟨fun a b => Nat.le_total b.1 a.1⟩

instance : IsTrans (Nat × Nat) degGE := ⟨fun _ _ _ h1 h2 => Nat.le_trans h2 h1⟩

/-- Sort `(degree, count)` groups by descending degree (degrees are distinct
dictionary keys, so the order is total and stability is irrelevant). -/
def sortDescByDegree (l : List (Nat × Nat)) : List (Nat × Nat) := l.insertionSort degGE

/-- The main loop of `separate_nodes_by_categories`: accumulate the node
count of each degree group into the running total and record
`category_k` of the updated total for that degree. -/
def assign_categories (th : List Nat) : Nat → List (Nat × Nat) → List (Nat × Nat)
  | _, [] => []
  | total, (deg, cnt) :: rest =>
    (deg, category_k th (total + cnt)) :: assign_categories th (total + cnt) rest

/-- `separate_nodes_by_categories` on the node/degree pairs of `nx.degree`:
returns the degree-to-tier-name mapping and the degree-to-nodes dictionary,
both as association lists. -/
def separate_nodes_by_categories (nodes_degrees : List (Nat × Nat))
    (caps : CategoryCapacities) : List (Nat × String) × List (Nat × List Nat) :=
  let inv := invert_tuple_list_to_dict nodes_degrees
  let th := node_categories_thresholds caps
  let groups := sortDescByDegree (inv.map fun kv => (kv.1, kv.2.length))
  ((assign_categories th 0 groups).map (fun dk => (dk.1, category_name dk.2)), inv)

/-- Priority rank of a tier in the order cube, circle_with_label, label_only,
circle, none. -/
def category_rank (name : String) : Nat :=
  ["cube", "circle_with_label", "label_only", "circle", "none"].indexOf name

/-! ### Separator lines of the SVG cube renderer (`draw_svg_cube`) -/

/-- The internal separator segments emitted by the "square separations" pass
of `draw_svg_cube` for one face grid: a vertical line right of cell `(x,y)`
when the right neighbour is `0` or differs, a horizontal line below cell
`(x,y)` when the lower neighbour is `0` or differs.  The pass never consults
`color_mode`; the parameter is carried to mirror the drawing call. -/
def face_separators (color_mode : String) (cube_order : Nat)
    (face : Nat → Nat → Int) : List ((Nat × Nat) × (Nat × Nat)) :=
  let _ := color_mode
  (List.range cube_order).flatMap fun y =>
    (List.range cube_order).flatMap fun x =>
      (if x < cube_order - 1 ∧ (face y (x+1) = 0 ∨ face y (x+1) ≠ face y x)
        then [((x+1, y), (x+1, y+1))] else [])
      ++ (if y < cube_order - 1 ∧ (face (y+1) x = 0 ∨ face (y+1) x ≠ face y x)
        then [((x, y+1), (x+1, y+1))] else [])

/-- A small concrete face grid: the corner cell `(x, y) = (0, 0)` is
unbandaged (label 0), every other cell carries label 1. -/
def demo_face : Nat → Nat → Int := fun y x => if x = 0 ∧ y = 0 then 0 else 1

/-! ### Edge stylist (`process_edges`) -/

/-- The fixed `FACE_COLORS` table. -/
def FACE_COLORS : List (String × String) :=
  [("L", "green"), ("F", "red"), ("R", "blue"), ("B", "orange"),
   ("U", "grey"), ("D", "#E0E000")]

/-- `UNKNOWN_FACE_EDGE_COLOR`, the fallback for labels outside the table. -/
def UNKNOWN_FACE_EDGE_COLOR : String := "#8020a0"

/-- The graphviz attributes `process_edges` derives for one edge. -/
structure EdgeAttrs where
  color : String
  fontcolor : String
  label : Option String
  arrowhead_none : Bool
deriving DecidableEq

/-- The attribute record built for every edge of one label group:
`col = faces_moves_color_map.get(label, UNKNOWN_FACE_EDGE_COLOR)`, the label
shown verbatim when present in the table and as the wildcard `"*"`
otherwise, the arrowhead suppressed when arrows are off. -/
def mk_edge_attributes (label : String) (show_labels show_arrows : Bool) : EdgeAttrs :=
  let col := (FACE_COLORS.lookup label).getD UNKNOWN_FACE_EDGE_COLOR
  { color := col
    fontcolor := col
    label :=
      if show_labels then
        some (if (FACE_COLORS.lookup label).isSome then label else "*")
      else none
    arrowhead_none := !show_arrows }

/-- `process_edges`: group the edge-label dictionary by label
(`invert_tuple_list_to_dict`) and give every edge of a group the group's
attributes. -/
def process_edges (edge_labels : List ((Nat × Nat) × String))
    (show_labels show_arrows : Bool) : List ((Nat × Nat) × EdgeAttrs) :=
  (invert_tuple_list_to_dict edge_labels).flatMap fun le =>
    le.2.map fun e => (e, mk_edge_attributes le.1 show_labels show_arrows)

/-! ### Legend index (`draw_legend`) -/

/-- `LEGEND_CONFIG["cube_index_rows"]`. -/
def cube_index_rows : Nat := 8

/-- `LEGEND_CONFIG["max_allowed_index_size"]`. -/
def max_allowed_index_size : Nat := 200

/-- The sorted list of nodes whose degree is in the `circle_with_label`
tier, as collected by the `draw_legend` loop. -/
def all_nodes_for_index (cats : List (Nat × String)) (inv : List (Nat × List Nat)) :
    List Nat :=
  List.insertionSort (fun a b => a ≤ b)
    (cats.foldl
      (fun acc dc =>
        if dc.2 = "circle_with_label" then acc ++ ((inv.lookup dc.1).getD []) else acc)
      [])

/-- `column_size = len(all_nodes_for_index) // cube_index_rows`, forced to at
least 1. -/
def legend_column_size (n : Nat) : Nat :=
  let c := n / cube_index_rows
  if c = 0 then 1 else c

/-- The guard `0 < len(all_nodes_for_index) <= max_allowed_index_size` under
which the thumbnail index table is built at all. -/
def legend_index_built (n : Nat) : Bool :=
  decide (0 < n) && decide (n ≤ max_allowed_index_size)

/-- Successive slices `lst[k : k + cs]` for `k = 0, cs, 2·cs, ...`; the fuel
is the list length, enough whenever `cs ≥ 1`. -/
def chunkListAux {α : Type} (cs : Nat) : Nat → List α → List (List α)
  | _, [] => []
  | 0, _ :: _ => []
  | fuel + 1, a :: t => ((a :: t).take cs) :: chunkListAux cs fuel ((a :: t).drop cs)

/-- The row slicing `[all_nodes_for_index[k : k + column_size] for k in
range(0, len(all_nodes_for_index), column_size)]`. -/
def chunkList {α : Type} (cs : Nat) (l : List α) : List (List α) :=
  chunkListAux cs l.length l

/-- The thumbnail rows (`index_nodes_rows`) of the legend index. -/
def legend_index_rows (nodes : List Nat) : List (List Nat) :=
  chunkList (legend_column_size nodes.length) nodes

/-! ## Lemmas about the live-connection graph -/

theorem template_edges_lt : ∀ e ∈ template_edges, e.1 < 27 ∧ e.2 < 27 := by decide

theorem liveEdges_sub {s : Nat} {e : Nat × Nat} (h : e ∈ liveEdges s) :
    e ∈ template_edges := by
  simp only [liveEdges, List.mem_map, List.mem_filter] at h
  obtain ⟨km, ⟨hkm, _⟩, rfl⟩ := h
  have := List.mem_enum_iff_getElem?.1 hkm
  exact List.getElem?_mem this

theorem adj_iff {s a b : Nat} :
    Adj s a b ↔ ∃ e ∈ liveEdges s, (e.1 = a ∧ e.2 = b) ∨ (e.1 = b ∧ e.2 = a) := by
  simp [Adj, adjb, List.any_eq_true, Bool.or_eq_true, Bool.and_eq_true, beq_iff_eq]

theorem touched_iff {s i : Nat} :
    touchedb s i = true ↔ ∃ e ∈ liveEdges s, e.1 = i ∨ e.2 = i := by
  simp [touchedb, List.any_eq_true, Bool.or_eq_true, beq_iff_eq]

theorem adj_symm {s a b : Nat} (h : Adj s a b) : Adj s b a := by
  rcases adj_iff.1 h with ⟨e, he, hh | hh⟩
  · exact adj_iff.2 ⟨e, he, Or.inr hh⟩
  · exact adj_iff.2 ⟨e, he, Or.inl hh⟩

theorem adj_touched {s a b : Nat} (h : Adj s a b) :
    touchedb s a = true ∧ touchedb s b = true := by
  rcases adj_iff.1 h with ⟨e, he, ⟨h1, h2⟩ | ⟨h1, h2⟩⟩
  · exact ⟨touched_iff.2 ⟨e, he, Or.inl h1⟩, touched_iff.2 ⟨e, he, Or.inr h2⟩⟩
  · exact ⟨touched_iff.2 ⟨e, he, Or.inr h2⟩, touched_iff.2 ⟨e, he, Or.inl h1⟩⟩

theorem adj_lt {s a b : Nat} (h : Adj s a b) : a < 27 ∧ b < 27 := by
  rcases adj_iff.1 h with ⟨e, he, ⟨h1, h2⟩ | ⟨h1, h2⟩⟩ <;>
    rcases template_edges_lt e (liveEdges_sub he) with ⟨l1, l2⟩
  · exact ⟨h1 ▸ l1, h2 ▸ l2⟩
  · exact ⟨h2 ▸ l2, h1 ▸ l1⟩

theorem touched_lt {s i : Nat} (h : touchedb s i = true) : i < 27 := by
  rcases touched_iff.1 h with ⟨e, he, hh | hh⟩ <;>
    rcases template_edges_lt e (liveEdges_sub he) with ⟨l1, l2⟩
  · exact hh ▸ l1
  · exact hh ▸ l2

theorem reach_trans {s a b c : Nat} (h1 : Reach s a b) (h2 : Reach s b c) :
    Reach s a c := Relation.ReflTransGen.trans h1 h2

theorem reach_symm {s a b : Nat} (h : Reach s a b) : Reach s b a :=
  Relation.ReflTransGen.symmetric (fun _ _ hab => adj_symm hab) h

theorem touched_of_reach {s i j : Nat} (h : Reach s i j)
    (hi : touchedb s i = true) : touchedb s j = true := by
  induction h with
  | refl => exact hi
  | tail _ hbc _ => exact (adj_touched hbc).2

/-! ## The component saturation -/

theorem subset_expandConn (s : Nat) (S : Finset Nat) : S ⊆ expandConn s S :=
  Finset.subset_union_left

theorem mem_expandConn {s : Nat} {S : Finset Nat} {a : Nat}
    (h : a ∈ expandConn s S) : a ∈ S ∨ ∃ b ∈ S, Adj s b a := by
  rcases Finset.mem_union.1 h with h | h
  · exact Or.inl h
  right
  rcases List.mem_filterMap.1 (List.mem_toFinset.1 h) with ⟨e, he, hee⟩
  by_cases h1 : e.1 ∈ S
  · rw [if_pos h1] at hee
    obtain rfl : e.2 = a := Option.some.inj hee
    exact ⟨e.1, h1, adj_iff.2 ⟨e, he, Or.inl ⟨rfl, rfl⟩⟩⟩
  · rw [if_neg h1] at hee
    by_cases h2 : e.2 ∈ S
    · rw [if_pos h2] at hee
      obtain rfl : e.1 = a := Option.some.inj hee
      exact ⟨e.2, h2, adj_iff.2 ⟨e, he, Or.inr ⟨rfl, rfl⟩⟩⟩
    · rw [if_neg h2] at hee
      exact absurd hee (Option.noConfusion)

theorem expandConn_closed {s : Nat} {S : Finset Nat} (hst : expandConn s S = S)
    {a b : Nat} (ha : a ∈ S) (hab : Adj s a b) : b ∈ S := by
  rcases adj_iff.1 hab with ⟨e, he, ⟨h1, h2⟩ | ⟨h1, h2⟩⟩
  · have : b ∈ expandConn s S := by
      refine Finset.mem_union_right _ (List.mem_toFinset.2 (List.mem_filterMap.2 ⟨e, he, ?_⟩))
      rw [if_pos (h1 ▸ ha), h2]
    exact hst ▸ this
  · by_cases hb : e.1 ∈ S
    · exact h1 ▸ hb
    have : b ∈ expandConn s S := by
      refine Finset.mem_union_right _ (List.mem_toFinset.2 (List.mem_filterMap.2 ⟨e, he, ?_⟩))
      rw [if_neg hb, if_pos (h2 ▸ ha), h1]
    exact hst ▸ this

theorem subset_iterate_expandConn (s : Nat) (S : Finset Nat) (n : Nat) :
    S ⊆ (expandConn s)^[n] S := by
  induction n with
  | zero => simp
  | succ n ih =>
    rw [Function.iterate_succ_apply']
    exact ih.trans (subset_expandConn s _)

theorem stable_iterate_expandConn {s : Nat} {S : Finset Nat}
    (h : expandConn s S = S) (n : Nat) : (expandConn s)^[n] S = S := by
  induction n with
  | zero => rfl
  | succ n ih => rw [Function.iterate_succ_apply', ih, h]

theorem iterate_expandConn_subset_insert (s i n : Nat) :
    (expandConn s)^[n] {i} ⊆ insert i (Finset.range 27) := by
  induction n with
  | zero =>
    simp only [Function.iterate_zero, id_eq]
    exact Finset.singleton_subset_iff.2 (Finset.mem_insert_self i _)
  | succ n ih =>
    rw [Function.iterate_succ_apply']
    intro a ha
    rcases mem_expandConn ha with ha | ⟨b, _, hadj⟩
    · exact ih ha
    · exact Finset.mem_insert_of_mem (Finset.mem_range.2 (adj_lt hadj).2)

theorem iterate_expandConn_card_growth (s i : Nat) :
    ∀ n, (∀ m, m < n →
        expandConn s ((expandConn s)^[m] {i}) ≠ (expandConn s)^[m] {i}) →
      n + 1 ≤ ((expandConn s)^[n] {i}).card := by
  intro n
  induction n with
  | zero => intro _; simp
  | succ n ih =>
    intro h
    have hn := ih fun m hm => h m (Nat.lt_succ_of_lt hm)
    have hne := h n (Nat.lt_succ_self n)
    have hss : (expandConn s)^[n] {i} ⊂ (expandConn s)^[n+1] {i} := by
      rw [Function.iterate_succ_apply']
      exact lt_of_le_of_ne (subset_expandConn s _) (Ne.symm hne)
    have := Finset.card_lt_card hss
    omega

theorem exists_stable_expandConn (s i : Nat) :
    ∃ n, n ≤ 27 ∧
      expandConn s ((expandConn s)^[n] {i}) = (expandConn s)^[n] {i} := by
  by_contra hcon
  push_neg at hcon
  have hg := iterate_expandConn_card_growth s i 28 fun m hm =>
    hcon m (by omega)
  have hsub := Finset.card_le_card (iterate_expandConn_subset_insert s i 28)
  have hins : (insert i (Finset.range 27)).card ≤ 28 := by
    refine le_trans (Finset.card_insert_le _ _) ?_
    simp
  omega

theorem expandConn_reachSet (s i : Nat) :
    expandConn s (reachSet s i) = reachSet s i := by
  obtain ⟨n, hn, hst⟩ := exists_stable_expandConn s i
  have h28 : reachSet s i = (expandConn s)^[n] {i} := by
    have h1 : (expandConn s)^[28] {i}
        = (expandConn s)^[28 - n] ((expandConn s)^[n] {i}) := by
      rw [← Function.iterate_add_apply]
      congr 1
      omega
    calc reachSet s i = (expandConn s)^[28] {i} := rfl
      _ = (expandConn s)^[28 - n] ((expandConn s)^[n] {i}) := h1
      _ = (expandConn s)^[n] {i} := stable_iterate_expandConn hst (28 - n)
  rw [h28]
  exact hst

theorem self_mem_reachSet (s i : Nat) : i ∈ reachSet s i :=
  subset_iterate_expandConn s {i} 28 (Finset.mem_singleton_self i)

theorem reachSet_sound {s i j : Nat} (h : j ∈ reachSet s i) : Reach s i j := by
  suffices hgen : ∀ n j, j ∈ (expandConn s)^[n] {i} → Reach s i j from hgen 28 j h
  intro n
  induction n with
  | zero =>
    intro j hj
    simp only [Function.iterate_zero, id_eq, Finset.mem_singleton] at hj
    exact hj ▸ Relation.ReflTransGen.refl
  | succ n ih =>
    intro j hj
    rw [Function.iterate_succ_apply'] at hj
    rcases mem_expandConn hj with hj | ⟨b, hb, hadj⟩
    · exact ih j hj
    · exact Relation.ReflTransGen.tail (ih b hb) hadj

theorem reachSet_complete {s i j : Nat} (h : Reach s i j) : j ∈ reachSet s i := by
  induction h with
  | refl => exact self_mem_reachSet s i
  | tail _ hbc ih => exact expandConn_closed (expandConn_reachSet s i) ih hbc

theorem mem_reachSet_iff {s i j : Nat} : j ∈ reachSet s i ↔ Reach s i j :=
  ⟨reachSet_sound, reachSet_complete⟩

theorem reachSet_eq_of_reach {s i j : Nat} (h : Reach s i j) :
    reachSet s i = reachSet s j := by
  ext k
  simp only [mem_reachSet_iff]
  exact ⟨fun hik => reach_trans (reach_symm h) hik, fun hjk => reach_trans h hjk⟩

/-! ## Components and labels -/

theorem comps_nodup (s : Nat) : (comps s).Nodup := List.nodup_dedup _

theorem mem_comps_iff {s : Nat} {c : Finset Nat} :
    c ∈ comps s ↔ ∃ t, t < 27 ∧ touchedb s t = true ∧ c = reachSet s t := by
  simp only [comps, List.mem_dedup, List.mem_map, List.mem_filter, List.mem_range]
  constructor
  · rintro ⟨t, ⟨ht27, htt⟩, rfl⟩
    exact ⟨t, ht27, htt, rfl⟩
  · rintro ⟨t, ht27, htt, rfl⟩
    exact ⟨t, ⟨ht27, htt⟩, rfl⟩

theorem comps_eq_or_disjoint {s : Nat} {c1 c2 : Finset Nat}
    (h1 : c1 ∈ comps s) (h2 : c2 ∈ comps s) :
    c1 = c2 ∨ ∀ x, x ∈ c1 → x ∉ c2 := by
  obtain ⟨t1, _, _, rfl⟩ := mem_comps_iff.1 h1
  obtain ⟨t2, _, _, rfl⟩ := mem_comps_iff.1 h2
  by_cases hx : ∃ x, x ∈ reachSet s t1 ∧ x ∈ reachSet s t2
  · left
    obtain ⟨x, hx1, hx2⟩ := hx
    exact reachSet_eq_of_reach
      (reach_trans (mem_reachSet_iff.1 hx1) (reach_symm (mem_reachSet_iff.1 hx2)))
  · right
    intro x hx1 hx2
    exact hx ⟨x, hx1, hx2⟩

theorem touched_iff_mem_comp {s i : Nat} :
    touchedb s i = true ↔ ∃ c ∈ comps s, i ∈ c := by
  constructor
  · intro h
    exact ⟨reachSet s i, mem_comps_iff.2 ⟨i, touched_lt h, h, rfl⟩,
      self_mem_reachSet s i⟩
  · rintro ⟨c, hc, hic⟩
    obtain ⟨t, _, htt, rfl⟩ := mem_comps_iff.1 hc
    exact touched_of_reach (mem_reachSet_iff.1 hic) htt

theorem cube_label_from_eq_zero {i : Nat} :
    ∀ (cs : List (Finset Nat)) (k : Nat),
      (cube_label_from k i cs = 0 ↔ ∀ c ∈ cs, i ∉ c) := by
  intro cs
  induction cs with
  | nil => intro k; simp [cube_label_from]
  | cons c rest ih =>
    intro k
    simp only [cube_label_from]
    by_cases hic : i ∈ c
    · rw [if_pos hic]
      simp only [List.mem_cons]
      constructor
      · intro h; omega
      · intro h; exact absurd hic (h c (Or.inl rfl))
    · rw [if_neg hic, ih (k+1)]
      simp only [List.mem_cons]
      constructor
      · rintro h c' (rfl | hc')
        · exact hic
        · exact h c' hc'
      · intro h c' hc'
        exact h c' (Or.inr hc')

theorem cube_label_from_zero_or_ge {i : Nat} :
    ∀ (cs : List (Finset Nat)) (k : Nat),
      cube_label_from k i cs = 0 ∨ k + 1 ≤ cube_label_from k i cs := by
  intro cs
  induction cs with
  | nil => intro k; left; rfl
  | cons c rest ih =>
    intro k
    simp only [cube_label_from]
    by_cases hic : i ∈ c
    · rw [if_pos hic]; omega
    · rw [if_neg hic]
      rcases ih (k+1) with h | h
      · left; exact h
      · right; omega

theorem cube_label_from_eq_succ {i : Nat} :
    ∀ (cs : List (Finset Nat)) (k j : Nat),
      cube_label_from k i cs = k + j + 1 →
      ∃ hj : j < cs.length, i ∈ cs.get ⟨j, hj⟩ := by
  intro cs
  induction cs with
  | nil =>
    intro k j h
    simp only [cube_label_from] at h
    omega
  | cons c rest ih =>
    intro k j h
    simp only [cube_label_from] at h
    by_cases hic : i ∈ c
    · rw [if_pos hic] at h
      have hj0 : j = 0 := by omega
      subst hj0
      exact ⟨Nat.succ_pos _, hic⟩
    · rw [if_neg hic] at h
      have hge := cube_label_from_zero_or_ge rest (k+1) (i := i)
      have hj1 : 1 ≤ j := by omega
      obtain ⟨j', rfl⟩ : ∃ j', j = j' + 1 := ⟨j - 1, by omega⟩
      have h' : cube_label_from (k+1) i rest = (k + 1) + j' + 1 := by omega
      obtain ⟨hjl, hmem⟩ := ih (k+1) j' h'
      refine ⟨by simp only [List.length_cons]; omega, ?_⟩
      simpa using hmem

theorem cube_label_from_of_mem {i : Nat} :
    ∀ (cs : List (Finset Nat)), cs.Nodup →
      (∀ c1 ∈ cs, ∀ c2 ∈ cs, c1 = c2 ∨ ∀ x, x ∈ c1 → x ∉ c2) →
      ∀ (k j : Nat) (hj : j < cs.length), i ∈ cs.get ⟨j, hj⟩ →
        cube_label_from k i cs = k + j + 1 := by
  intro cs
  induction cs with
  | nil =>
    intro _ _ k j hj
    exact absurd hj (Nat.not_lt_zero j)
  | cons c rest ih =>
    intro hnd hdisj k j hj hmem
    rcases j with _ | j'
    · have hic : i ∈ c := hmem
      simp only [cube_label_from, if_pos hic]
    · have hj' : j' < rest.length := by
        simp only [List.length_cons] at hj
        omega
      have hmem' : i ∈ rest.get ⟨j', hj'⟩ := by simpa using hmem
      have hic : i ∉ c := by
        intro hic
        have hrg : rest.get ⟨j', hj'⟩ ∈ rest := List.get_mem rest j' hj'
        rcases hdisj c (List.mem_cons_self c rest) (rest.get ⟨j', hj'⟩)
            (List.mem_cons_of_mem c hrg) with heq | hdis
        · exact (List.nodup_cons.1 hnd).1 (heq ▸ hrg)
        · exact hdis i hic hmem'
      have := ih (List.nodup_cons.1 hnd).2
        (fun c1 h1 c2 h2 =>
          hdisj c1 (List.mem_cons_of_mem c h1) c2 (List.mem_cons_of_mem c h2))
        (k+1) j' hj' hmem'
      simp only [cube_label_from, if_neg hic]
      omega

theorem cube_label_comps_eq_zero {s i : Nat} :
    cube_label (comps s) i = 0 ↔ touchedb s i = false := by
  rw [cube_label, cube_label_from_eq_zero]
  constructor
  · intro h
    rw [← Bool.not_eq_true]
    intro ht
    obtain ⟨c, hc, hic⟩ := touched_iff_mem_comp.1 ht
    exact h c hc hic
  · intro h c hc hic
    have := touched_iff_mem_comp.2 ⟨c, hc, hic⟩
    rw [h] at this
    exact Bool.noConfusion this

theorem reach_of_label_eq {s i j : Nat}
    (h : cube_label (comps s) i = cube_label (comps s) j)
    (hnz : cube_label (comps s) i ≠ 0) : Reach s i j := by
  set m := cube_label (comps s) i with hm
  have hi1 : cube_label_from 0 i (comps s) = 0 + (m - 1) + 1 := by
    have : cube_label (comps s) i = m := hm.symm
    rw [cube_label] at this
    omega
  have hj1 : cube_label_from 0 j (comps s) = 0 + (m - 1) + 1 := by
    have : cube_label (comps s) j = m := h.symm
    rw [cube_label] at this
    omega
  obtain ⟨hli, hmi⟩ := cube_label_from_eq_succ (comps s) 0 (m-1) hi1
  obtain ⟨hlj, hmj⟩ := cube_label_from_eq_succ (comps s) 0 (m-1) hj1
  have hc : (comps s).get ⟨m-1, hli⟩ ∈ comps s := List.get_mem (comps s) (m-1) hli
  obtain ⟨t, _, _, hct⟩ := mem_comps_iff.1 hc
  have hri : Reach s t i := mem_reachSet_iff.1 (by rw [← hct]; exact hmi)
  have hrj : Reach s t j := mem_reachSet_iff.1 (by rw [← hct]; exact hmj)
  exact reach_trans (reach_symm hri) hrj

theorem label_eq_of_adj {s i j : Nat} (h : Adj s i j) :
    cube_label (comps s) i = cube_label (comps s) j := by
  obtain ⟨c, hc, hic⟩ := touched_iff_mem_comp.1 (adj_touched h).1
  obtain ⟨n, hn⟩ := List.mem_iff_get.1 hc
  obtain ⟨nv, hnl⟩ := n
  have hjc : j ∈ c := by
    obtain ⟨t, _, _, rfl⟩ := mem_comps_iff.1 hc
    exact mem_reachSet_iff.2
      (reach_trans (mem_reachSet_iff.1 hic) (Relation.ReflTransGen.single h))
  have hdisj : ∀ c1 ∈ comps s, ∀ c2 ∈ comps s, c1 = c2 ∨ ∀ x, x ∈ c1 → x ∉ c2 :=
    fun c1 h1 c2 h2 => comps_eq_or_disjoint h1 h2
  have li := cube_label_from_of_mem (comps s) (comps_nodup s) hdisj 0 nv hnl
    (by rw [hn]; exact hic)
  have lj := cube_label_from_of_mem (comps s) (comps_nodup s) hdisj 0 nv hnl
    (by rw [hn]; exact hjc)
  rw [cube_label, li, cube_label, lj]

theorem label_surj {s j0 : Nat} (hj : j0 < (comps s).length) :
    ∃ t, t < 27 ∧ cube_label (comps s) t = j0 + 1 := by
  have hc : (comps s).get ⟨j0, hj⟩ ∈ comps s := List.get_mem (comps s) j0 hj
  obtain ⟨t, ht27, htt, hct⟩ := mem_comps_iff.1 hc
  refine ⟨t, ht27, ?_⟩
  have hmem : t ∈ (comps s).get ⟨j0, hj⟩ := by
    rw [hct]
    exact self_mem_reachSet s t
  have := cube_label_from_of_mem (comps s) (comps_nodup s)
    (fun c1 h1 c2 h2 => comps_eq_or_disjoint h1 h2) 0 j0 hj hmem
  rw [cube_label, this]
  omega

/-! ## The decoded array -/

theorem bandage_array_length (s : Nat) : (bandage_array s).length = 27 := by
  simp [bandage_array]

theorem bandage_array_getD {s i : Nat} (hi : i < 27) :
    (bandage_array s).getD i 0 = cube_label (comps s) i := by
  rw [bandage_array, List.getD_eq_getElem?_getD, List.getElem?_map,
    List.getElem?_range hi]
  rfl

theorem mem_bandage_array {s m : Nat} :
    m ∈ bandage_array s ↔ ∃ i, i < 27 ∧ cube_label (comps s) i = m := by
  simp only [bandage_array, List.mem_map, List.mem_range]

theorem comps_toFinset (s : Nat) :
    (comps s).toFinset
      = ((Finset.range 27).filter fun i => touchedb s i = true).image (reachSet s) := by
  ext c
  simp only [List.mem_toFinset, Finset.mem_image, Finset.mem_filter, Finset.mem_range,
    mem_comps_iff]
  constructor
  · rintro ⟨t, h1, h2, rfl⟩
    exact ⟨t, ⟨h1, h2⟩, rfl⟩
  · rintro ⟨t, ⟨h1, h2⟩, rfl⟩
    exact ⟨t, h1, h2, rfl⟩

theorem comps_length_eq_nComponents (s : Nat) :
    (comps s).length = nComponents s := by
  rw [nComponents, ← comps_toFinset, List.toFinset_card_of_nodup (comps_nodup s)]

theorem distinct_nonzero_labels (s : Nat) :
    ((bandage_array s).toFinset.erase 0).card = (comps s).length := by
  have hset : (bandage_array s).toFinset.erase 0
      = Finset.image (fun j => j + 1) (Finset.range (comps s).length) := by
    ext m
    simp only [Finset.mem_erase, List.mem_toFinset, Finset.mem_image, Finset.mem_range,
      mem_bandage_array]
    constructor
    · rintro ⟨hm0, i, hi27, hlm⟩
      have h1 : cube_label_from 0 i (comps s) = 0 + (m - 1) + 1 := by
        rw [cube_label] at hlm
        omega
      obtain ⟨hj, _⟩ := cube_label_from_eq_succ (comps s) 0 (m-1) h1
      exact ⟨m - 1, hj, by omega⟩
    · rintro ⟨j, hj, rfl⟩
      obtain ⟨t, ht27, hlt⟩ := label_surj hj
      exact ⟨by omega, t, ht27, hlt⟩
  rw [hset, Finset.card_image_of_injective _ (fun a b h => by omega), Finset.card_range]

theorem decode_hex_eq_some {s : Nat} {arr : List Nat}
    (h : convert_hex_signature_to_bandage_array s = some arr) :
    s < 2 ^ 54 ∧ arr = bandage_array s := by
  rw [convert_hex_signature_to_bandage_array, hex_decode_guarded] at h
  by_cases hs : 2 ^ 54 ≤ s
  · rw [if_pos hs] at h
    exact Option.noConfusion h
  · rw [if_neg hs] at h
    exact ⟨Nat.lt_of_not_le hs, (Option.some.inj h).symm⟩

/-! ## Concrete connectivity certificates -/

theorem walk_connected_reach {s : Nat} :
    ∀ (w : List Nat) (a : Nat), walk_connected s (a :: w) = true →
      ∀ m ∈ a :: w, Reach s a m := by
  intro w
  induction w with
  | nil =>
    intro a _ m hm
    obtain rfl : m = a := List.mem_singleton.1 hm
    exact Relation.ReflTransGen.refl
  | cons b rest ih =>
    intro a hw m hm
    simp only [walk_connected, Bool.and_eq_true] at hw
    obtain ⟨hab, hwb⟩ := hw
    rcases List.mem_cons.1 hm with rfl | hm'
    · exact Relation.ReflTransGen.refl
    · exact reach_trans (Relation.ReflTransGen.single hab) (ih b hwb m hm')

theorem dedup_eq_single {α : Type} [DecidableEq α] :
    ∀ (l : List α) (c : α), l ≠ [] → (∀ x ∈ l, x = c) → l.dedup = [c] := by
  intro l
  induction l with
  | nil => intro c h _; exact absurd rfl h
  | cons a t ih =>
    intro c _ hall
    have ha : a = c := hall a (List.mem_cons_self a t)
    by_cases ht : t = []
    · subst ht ha
      simp
    · have hdt := ih c ht (fun x hx => hall x (List.mem_cons_of_mem a hx))
      rw [List.dedup_cons_of_mem, hdt]
      obtain ⟨y, hy⟩ := List.exists_mem_of_ne_nil t ht
      have hyc : y = c := hall y (List.mem_cons_of_mem a hy)
      rw [ha, ← hyc]
      exact hy

theorem comps_single {s t0 : Nat} (ht0 : touchedb s t0 = true)
    (hall : ∀ i, i < 27 → touchedb s i = true → Reach s t0 i) :
    comps s = [reachSet s t0] := by
  rw [comps]
  apply dedup_eq_single
  · intro hemp
    have hmt : t0 ∈ (List.range 27).filter fun i => touchedb s i := by
      simp [List.mem_filter, List.mem_range, touched_lt ht0, ht0]
    have hmm : reachSet s t0
        ∈ ((List.range 27).filter fun i => touchedb s i).map (reachSet s) :=
      List.mem_map_of_mem _ hmt
    rw [hemp] at hmm
    exact absurd hmm (List.not_mem_nil _)
  · intro x hx
    simp only [List.mem_map, List.mem_filter, List.mem_range] at hx
    obtain ⟨i, ⟨hi27, hit⟩, rfl⟩ := hx
    exact (reachSet_eq_of_reach (hall i hi27 hit)).symm

theorem bandage_array_single {s t0 : Nat} (ht0 : touchedb s t0 = true)
    (hall : ∀ i, i < 27 → touchedb s i = true → Reach s t0 i) :
    bandage_array s
      = (List.range 27).map fun i => if touchedb s i = true then 1 else 0 := by
  rw [bandage_array]
  apply List.map_congr_left
  intro i hi
  rw [comps_single ht0 hall]
  simp only [cube_label, cube_label_from]
  by_cases hit : touchedb s i = true
  · rw [if_pos (mem_reachSet_iff.2 (hall i (List.mem_range.1 hi) hit)), if_pos hit]
  · rw [if_neg, if_neg hit]
    intro hmem
    exact hit (touched_of_reach (mem_reachSet_iff.1 hmem) ht0)

theorem decode_three_eq :
    convert_hex_signature_to_bandage_array 3 = some arr_sig3 := by
  have ht0 : touchedb 3 24 = true := by decide
  have hw : walk_connected 3 (24 :: [25, 26]) = true := by decide
  have hmem : ∀ i ∈ List.range 27, touchedb 3 i = true →
      i ∈ (24 :: [25, 26] : List Nat) := by decide
  have hall : ∀ i, i < 27 → touchedb 3 i = true → Reach 3 24 i := by
    intro i hi hit
    exact walk_connected_reach [25, 26] 24 hw i (hmem i (List.mem_range.2 hi) hit)
  have hb2 : bandage_array 3 = arr_sig3 := by
    rw [bandage_array_single ht0 hall]
    decide
  simp only [convert_hex_signature_to_bandage_array, hex_decode_guarded]
  rw [if_neg (by decide), hb2]

/-! ## Claims about the hex decoder -/

/-- C1: for every hex signature accepted by
`convert_hex_signature_to_bandage_array`, the returned 27-entry array labels
cubies exactly by connected components of the live connections: a cubie
touched by no live connection has label 0 (and conversely), two cubies
sharing a nonzero label are reachable from each other via live connections,
no live connection joins two cubies with different nonzero labels,
`reachSet` is precisely `Reach`-reachability (so its distinct images over
touched cubies are the connected components), and the number of distinct
nonzero labels equals the number of connected components of the subgraph
induced by the signature's set bits. -/
theorem hex_decode_component_labeling (s : Nat) (arr : List Nat)
    (h : convert_hex_signature_to_bandage_array s = some arr) :
    arr.length = 27 ∧
    (∀ i, i < 27 → (arr.getD i 0 = 0 ↔ touchedb s i = false)) ∧
    (∀ i j, i < 27 → j < 27 → arr.getD i 0 = arr.getD j 0 → arr.getD i 0 ≠ 0 →
      Reach s i j) ∧
    (∀ i j, Adj s i j → arr.getD i 0 ≠ 0 → arr.getD j 0 ≠ 0 →
      arr.getD i 0 = arr.getD j 0) ∧
    (∀ i j, j ∈ reachSet s i ↔ Reach s i j) ∧
    (arr.toFinset.erase 0).card = nComponents s := by
  obtain ⟨hs, rfl⟩ := decode_hex_eq_some h
  refine ⟨bandage_array_length s, ?_, ?_, ?_, fun i j => mem_reachSet_iff, ?_⟩
  · intro i hi
    rw [bandage_array_getD hi]
    exact cube_label_comps_eq_zero
  · intro i j hi hj heq hnz
    rw [bandage_array_getD hi] at heq hnz
    rw [bandage_array_getD hj] at heq
    exact reach_of_label_eq heq hnz
  · intro i j hadj _ _
    rw [bandage_array_getD (adj_lt hadj).1, bandage_array_getD (adj_lt hadj).2]
    exact label_eq_of_adj hadj
  · rw [distinct_nonzero_labels, comps_length_eq_nComponents]

/-- Witness for C1 at the concrete signature `0x3`. -/
theorem hex_decode_component_labeling_witness :
    arr_sig3.length = 27 ∧
    (∀ i, i < 27 → (arr_sig3.getD i 0 = 0 ↔ touchedb 3 i = false)) ∧
    (∀ i j, i < 27 → j < 27 → arr_sig3.getD i 0 = arr_sig3.getD j 0 →
      arr_sig3.getD i 0 ≠ 0 → Reach 3 i j) ∧
    (∀ i j, Adj 3 i j → arr_sig3.getD i 0 ≠ 0 → arr_sig3.getD j 0 ≠ 0 →
      arr_sig3.getD i 0 = arr_sig3.getD j 0) ∧
    (∀ i j, j ∈ reachSet 3 i ↔ Reach 3 i j) ∧
    (arr_sig3.toFinset.erase 0).card = nComponents 3 :=
  hex_decode_component_labeling 3 arr_sig3 decode_three_eq

/-- C2: the hex signature with all 54 bits set decodes to an array in which
every one of the 27 cubies carries the same single positive label: the full
adjacency template connects all 27 cubies into one component. -/
theorem hex_decode_all_ones_single_block :
    convert_hex_signature_to_bandage_array (2 ^ 54 - 1)
      = some (List.replicate 27 1) := by
  have ht0 : touchedb (2 ^ 54 - 1) 0 = true := by decide
  have hw : walk_connected (2 ^ 54 - 1) w27 = true := by decide
  have hcov : ∀ i ∈ List.range 27, i ∈ w27 := by decide
  have hall : ∀ i, i < 27 → touchedb (2 ^ 54 - 1) i = true →
      Reach (2 ^ 54 - 1) 0 i := by
    intro i hi _
    exact walk_connected_reach w27.tail 0 hw i (hcov i (List.mem_range.2 hi))
  have hb2 : bandage_array (2 ^ 54 - 1) = List.replicate 27 1 := by
    rw [bandage_array_single ht0 hall]
    decide
  simp only [convert_hex_signature_to_bandage_array, hex_decode_guarded]
  rw [if_neg (by decide), hb2]

/-- C3: the hex decoder raises exactly on signatures whose bit-width exceeds
54 bits (`2 ^ 54 ≤ s`), and this guard fires before any adjacency-template
bit is consulted — `hex_decode_guarded` rejects an oversized signature for
every decoding body; every signature of at most 54 bits decodes without this
error. -/
theorem hex_decode_size_guard (s : Nat) :
    (2 ^ 54 ≤ s → ∀ body, hex_decode_guarded body s = none) ∧
    (2 ^ 54 ≤ s → convert_hex_signature_to_bandage_array s = none) ∧
    (s < 2 ^ 54 → ∃ arr, convert_hex_signature_to_bandage_array s = some arr) := by
  refine ⟨fun hs body => ?_, fun hs => ?_, fun hs => ?_⟩
  · rw [hex_decode_guarded, if_pos hs]
  · rw [convert_hex_signature_to_bandage_array, hex_decode_guarded, if_pos hs]
  · exact ⟨bandage_array s,
      by rw [convert_hex_signature_to_bandage_array, hex_decode_guarded,
        if_neg (Nat.not_le.2 hs)]⟩

/-- Witness for C3 at the 55-bit signature `2 ^ 54` and the small
signature `0x3`. -/
theorem hex_decode_size_guard_witness :
    hex_decode_guarded bandage_array (2 ^ 54) = none ∧
    convert_hex_signature_to_bandage_array (2 ^ 54) = none ∧
    ∃ arr, convert_hex_signature_to_bandage_array 3 = some arr :=
  ⟨(hex_decode_size_guard (2 ^ 54)).1 (le_refl _) bandage_array,
   (hex_decode_size_guard (2 ^ 54)).2.1 (le_refl _),
   (hex_decode_size_guard 3).2.2 (by decide)⟩

/-- C9: the nonzero labels occurring in a decoded array are exactly the
consecutive integers `1, ..., C` where `C` is the number of connected
components of the live-connection graph: labels start at 1 and have no
gaps. -/
theorem hex_decode_labels_consecutive (s : Nat) (arr : List Nat)
    (h : convert_hex_signature_to_bandage_array s = some arr) :
    ∀ m, (m ∈ arr ∧ m ≠ 0) ↔ (1 ≤ m ∧ m ≤ nComponents s) := by
  obtain ⟨hs, rfl⟩ := decode_hex_eq_some h
  intro m
  rw [← comps_length_eq_nComponents]
  constructor
  · rintro ⟨hm, hm0⟩
    obtain ⟨i, hi27, hlm⟩ := mem_bandage_array.1 hm
    have h1 : cube_label_from 0 i (comps s) = 0 + (m - 1) + 1 := by
      rw [cube_label] at hlm
      omega
    obtain ⟨hj, _⟩ := cube_label_from_eq_succ (comps s) 0 (m-1) h1
    omega
  · rintro ⟨h1, h2⟩
    obtain ⟨t, ht27, hlt⟩ := @label_surj s (m - 1) (by omega)
    refine ⟨mem_bandage_array.2 ⟨t, ht27, by omega⟩, by omega⟩

/-- Witness for C9 at the concrete signature `0x3` and label 1. -/
theorem hex_decode_labels_consecutive_witness :
    (1 ∈ arr_sig3 ∧ (1 : Nat) ≠ 0) ↔ (1 ≤ 1 ∧ 1 ≤ nComponents 3) :=
  hex_decode_labels_consecutive 3 arr_sig3 decode_three_eq 1

/-! ## Claims about the list decoder -/

theorem parseIntList_ne_nil {tok : List Char} {rest : List (List Char)}
    {l : List Int} (h : parseIntList? (tok :: rest) = some l) : l ≠ [] := by
  simp only [parseIntList?] at h
  rcases hv : parseInt? tok with _ | v <;> rw [hv] at h
  · exact Option.noConfusion h
  rcases hvs : parseIntList? rest with _ | vs <;> rw [hvs] at h
  · exact Option.noConfusion h
  · obtain rfl := Option.some.inj h
    exact List.cons_ne_nil v vs

/-- C4 (amended): `convert_cube_signature_to_bandage_array` is a function of
the token list obtained by splitting the stripped input at the characters
`.`, `,`, `;`, and the space character and dropping empty pieces; it
succeeds on every token list of exactly 27 integer-parseable tokens,
returning their parses; and it fails whenever the token count is neither 1
(the hex fallback) nor 27.  In particular two inputs with different
separator mixes but identical token lists decode identically. -/
theorem list_decode_tokenization (t1 t2 : List Char) :
    (tokensOf t1 = tokensOf t2 →
      convert_cube_signature_to_bandage_array t1
        = convert_cube_signature_to_bandage_array t2) ∧
    (∀ l, (tokensOf t1).length = 27 → parseIntList? (tokensOf t1) = some l →
      convert_cube_signature_to_bandage_array t1 = some l) ∧
    ((tokensOf t1).length ≠ 1 → (tokensOf t1).length ≠ 27 →
      convert_cube_signature_to_bandage_array t1 = none) := by
  refine ⟨fun heq => ?_, fun l h27 hl => ?_, fun h1 h27 => ?_⟩
  · simp only [convert_cube_signature_to_bandage_array]
    rw [heq]
  · simp only [convert_cube_signature_to_bandage_array]
    rw [if_neg (by omega), if_pos h27, hl]
    have hne : (tokensOf t1) ≠ [] := by
      intro hemp
      rw [hemp] at h27
      exact absurd h27 (by decide)
    obtain ⟨tok, rest, hcons⟩ := List.exists_cons_of_ne_nil hne
    rw [hcons] at hl
    have hni : ¬ (l.isEmpty = true) := by
      simp only [List.isEmpty_iff]
      exact parseIntList_ne_nil hl
    show (if l.isEmpty = true then none else some l) = some l
    rw [if_neg hni]
  · simp only [convert_cube_signature_to_bandage_array]
    rw [if_neg h1, if_neg h27]

/-- Witness for C4 (amended): space-separated and period-separated lists of
27 ones decode identically and successfully; a 2-token list fails. -/
theorem list_decode_tokenization_witness :
    convert_cube_signature_to_bandage_array list_sig_spaces
      = convert_cube_signature_to_bandage_array list_sig_dots ∧
    convert_cube_signature_to_bandage_array list_sig_spaces
      = some (List.replicate 27 (1 : Int)) ∧
    convert_cube_signature_to_bandage_array ['1', ' ', '1'] = none :=
  ⟨(list_decode_tokenization list_sig_spaces list_sig_dots).1 (by decide),
   (list_decode_tokenization list_sig_spaces list_sig_dots).2.1
     (List.replicate 27 (1 : Int)) (by decide) (by decide),
   (list_decode_tokenization ['1', ' ', '1'] ['1', ' ', '1']).2.2
     (by decide) (by decide)⟩

/-- C4 counterexample: the claim reads the separators as "`.`, `,`, `;`, or
whitespace" and asserts success exactly on 27 resulting tokens.  On an input
whose first two numbers are separated by a tab, the claimed whitespace
tokenizer yields 27 integer tokens, yet the source splits only at the space
character, obtains 26 tokens, and fails. -/
theorem list_decode_whitespace_counterexample :
    (claimTokensOf tab_list_input).length = 27 ∧
    (∀ tk ∈ claimTokensOf tab_list_input, parseInt? tk = some 1) ∧
    (tokensOf tab_list_input).length = 26 ∧
    convert_cube_signature_to_bandage_array tab_list_input = none := by
  refine ⟨by decide, by decide, by decide, by decide⟩

/-! ## Lemmas about `invert_tuple_list_to_dict` -/

theorem upsertPair_keys {α β : Type} [DecidableEq β] (key : β) (a : α) :
    ∀ acc : List (β × List α),
      (upsertPair key a acc).map Prod.fst
        = if key ∈ acc.map Prod.fst then acc.map Prod.fst
          else acc.map Prod.fst ++ [key] := by
  intro acc
  induction acc with
  | nil => simp [upsertPair]
  | cons p rest ih =>
    obtain ⟨k, v⟩ := p
    by_cases hk : k = key
    · subst hk
      simp [upsertPair]
    · simp only [upsertPair, if_neg hk, List.map_cons, ih]
      by_cases hmem : key ∈ rest.map Prod.fst
      · rw [if_pos hmem, if_pos]
        simp only [List.map_cons, List.mem_cons]
        exact Or.inr hmem
      · rw [if_neg hmem, if_neg]
        · simp
        · simp only [List.map_cons, List.mem_cons]
          push_neg
          exact ⟨fun he => hk he.symm, hmem⟩

theorem invert_keys_nodup {α β : Type} [DecidableEq β] (l : List (α × β)) :
    ((invert_tuple_list_to_dict l).map Prod.fst).Nodup := by
  suffices h : ∀ acc : List (β × List α), (acc.map Prod.fst).Nodup →
      ((l.foldl (fun acc p => upsertPair p.2 p.1 acc) acc).map Prod.fst).Nodup by
    exact h [] (by simp)
  induction l with
  | nil => intro acc h; simpa using h
  | cons p rest ih =>
    intro acc h
    simp only [List.foldl_cons]
    apply ih
    rw [upsertPair_keys]
    by_cases hmem : p.2 ∈ acc.map Prod.fst
    · rwa [if_pos hmem]
    · rw [if_neg hmem]
      rw [List.nodup_append]
      refine ⟨h, List.nodup_singleton _, ?_⟩
      intro x hx hx2
      obtain rfl := List.mem_singleton.1 hx2
      exact hmem hx

theorem upsertPair_values_ne_nil {α β : Type} [DecidableEq β] {key : β} {a : α} :
    ∀ acc : List (β × List α), (∀ kv ∈ acc, kv.2 ≠ []) →
      ∀ kv ∈ upsertPair key a acc, kv.2 ≠ [] := by
  intro acc
  induction acc with
  | nil =>
    intro _ kv hkv
    simp only [upsertPair, List.mem_singleton] at hkv
    subst hkv
    exact List.cons_ne_nil a []
  | cons p rest ih =>
    intro hacc kv hkv
    obtain ⟨k, v⟩ := p
    simp only [upsertPair] at hkv
    by_cases hk : k = key
    · rw [if_pos hk] at hkv
      rcases List.mem_cons.1 hkv with rfl | hkv'
      · simp
      · exact hacc kv (List.mem_cons_of_mem _ hkv')
    · rw [if_neg hk] at hkv
      rcases List.mem_cons.1 hkv with rfl | hkv'
      · exact hacc (k, v) (List.mem_cons_self _ _)
      · exact ih (fun kv2 h2 => hacc kv2 (List.mem_cons_of_mem _ h2)) kv hkv'

theorem invert_values_ne_nil {α β : Type} [DecidableEq β] (l : List (α × β)) :
    ∀ kv ∈ invert_tuple_list_to_dict l, kv.2 ≠ [] := by
  suffices h : ∀ acc : List (β × List α), (∀ kv ∈ acc, kv.2 ≠ []) →
      ∀ kv ∈ l.foldl (fun acc p => upsertPair p.2 p.1 acc) acc, kv.2 ≠ [] by
    exact h [] (by simp)
  induction l with
  | nil => intro acc h; simpa using h
  | cons p rest ih =>
    intro acc h
    simp only [List.foldl_cons]
    exact ih _ (upsertPair_values_ne_nil acc h)

theorem upsertPair_mem_iff {α β : Type} [DecidableEq β] {key b : β} {x a : α} :
    ∀ acc : List (β × List α),
      ((∃ v, (b, v) ∈ upsertPair key a acc ∧ x ∈ v)
        ↔ (b = key ∧ x = a) ∨ ∃ v, (b, v) ∈ acc ∧ x ∈ v) := by
  intro acc
  induction acc with
  | nil =>
    simp only [upsertPair, List.mem_singleton, Prod.ext_iff, List.not_mem_nil,
      false_and, and_false, exists_false, or_false]
    constructor
    · rintro ⟨v, ⟨hb, rfl⟩, hx⟩
      exact ⟨hb, List.mem_singleton.1 hx⟩
    · rintro ⟨hb, hxa⟩
      exact ⟨[a], ⟨hb, rfl⟩, by rw [hxa]; exact List.mem_singleton_self a⟩
  | cons p rest ih =>
    obtain ⟨k, v0⟩ := p
    by_cases hk : k = key
    · subst hk
      simp only [upsertPair, if_pos rfl]
      constructor
      · rintro ⟨v, hv, hxv⟩
        rcases List.mem_cons.1 hv with heq | hv'
        · injection heq with h1 h2
          subst h1
          subst h2
          rcases List.mem_append.1 hxv with hxv0 | hxa
          · exact Or.inr ⟨v0, List.mem_cons_self _ _, hxv0⟩
          · exact Or.inl ⟨rfl, List.mem_singleton.1 hxa⟩
        · exact Or.inr ⟨v, List.mem_cons_of_mem _ hv', hxv⟩
      · rintro (⟨rfl, rfl⟩ | ⟨v, hv, hxv⟩)
        · exact ⟨v0 ++ [x], List.mem_cons_self _ _,
            List.mem_append_right _ (List.mem_singleton_self x)⟩
        · rcases List.mem_cons.1 hv with heq | hv'
          · injection heq with h1 h2
            subst h1
            subst h2
            exact ⟨v ++ [a], List.mem_cons_self _ _, List.mem_append_left _ hxv⟩
          · exact ⟨v, List.mem_cons_of_mem _ hv', hxv⟩
    · simp only [upsertPair, if_neg hk]
      constructor
      · rintro ⟨v, hv, hxv⟩
        rcases List.mem_cons.1 hv with heq | hv'
        · exact Or.inr ⟨v, List.mem_cons.2 (Or.inl heq), hxv⟩
        · rcases ih.1 ⟨v, hv', hxv⟩ with hL | ⟨v2, hv2, hxv2⟩
          · exact Or.inl hL
          · exact Or.inr ⟨v2, List.mem_cons_of_mem _ hv2, hxv2⟩
      · rintro (⟨rfl, rfl⟩ | ⟨v, hv, hxv⟩)
        · obtain ⟨v2, hv2, hxv2⟩ := ih.2 (Or.inl ⟨rfl, rfl⟩)
          exact ⟨v2, List.mem_cons_of_mem _ hv2, hxv2⟩
        · rcases List.mem_cons.1 hv with heq | hv'
          · exact ⟨v, List.mem_cons.2 (Or.inl heq), hxv⟩
          · obtain ⟨v2, hv2, hxv2⟩ := ih.2 (Or.inr ⟨v, hv', hxv⟩)
            exact ⟨v2, List.mem_cons_of_mem _ hv2, hxv2⟩

theorem invert_mem_iff {α β : Type} [DecidableEq β] {l : List (α × β)} {a : α} {b : β} :
    (∃ v, (b, v) ∈ invert_tuple_list_to_dict l ∧ a ∈ v) ↔ (a, b) ∈ l := by
  suffices h : ∀ (l : List (α × β)) (acc : List (β × List α)),
      ((∃ v, (b, v) ∈ l.foldl (fun acc p => upsertPair p.2 p.1 acc) acc ∧ a ∈ v)
        ↔ (a, b) ∈ l ∨ ∃ v, (b, v) ∈ acc ∧ a ∈ v) by
    rw [invert_tuple_list_to_dict, h]
    simp
  intro l
  induction l with
  | nil => intro acc; simp
  | cons p rest ih =>
    intro acc
    simp only [List.foldl_cons]
    rw [ih, upsertPair_mem_iff]
    simp only [List.mem_cons, Prod.ext_iff]
    tauto

/-! ## Lemmas about the categorizer -/

theorem category_k_mono {th : List Nat} {t1 t2 : Nat} (h : t1 ≤ t2) :
    category_k th t1 ≤ category_k th t2 := by
  apply List.Sublist.length_le
  apply List.monotone_filter_right
  intro m hm
  simp only [decide_eq_true_eq] at hm ⊢
  omega

theorem category_k_four (a b c d T : Nat) :
    category_k [a, b, c, d] T
      = (if a < T then 1 else 0) + (if b < T then 1 else 0)
        + (if c < T then 1 else 0) + (if d < T then 1 else 0) := by
  by_cases h1 : a < T <;> by_cases h2 : b < T <;> by_cases h3 : c < T <;>
      by_cases h4 : d < T <;>
    simp [category_k, List.filter_cons, h1, h2, h3, h4]

theorem assign_categories_fst (th : List Nat) :
    ∀ (t : Nat) (l : List (Nat × Nat)),
      (assign_categories th t l).map Prod.fst = l.map Prod.fst := by
  intro t l
  induction l generalizing t with
  | nil => rfl
  | cons p rest ih =>
    obtain ⟨d, c⟩ := p
    simp only [assign_categories, List.map_cons, ih]

theorem assign_categories_k_lower (th : List Nat) :
    ∀ (t : Nat) (l : List (Nat × Nat)) (dk : Nat × Nat),
      dk ∈ assign_categories th t l → category_k th t ≤ dk.2 := by
  intro t l
  induction l generalizing t with
  | nil => intro dk h; exact absurd h (List.not_mem_nil dk)
  | cons p rest ih =>
    obtain ⟨d, c⟩ := p
    intro dk hdk
    simp only [assign_categories] at hdk
    rcases List.mem_cons.1 hdk with rfl | h'
    · exact category_k_mono (Nat.le_add_right t c)
    · exact le_trans (category_k_mono (Nat.le_add_right t c)) (ih (t + c) dk h')

theorem assign_categories_pairwise (th : List Nat) :
    ∀ (t : Nat) (l : List (Nat × Nat)),
      (assign_categories th t l).Pairwise (fun a b => a.2 ≤ b.2) := by
  intro t l
  induction l generalizing t with
  | nil => exact List.Pairwise.nil
  | cons p rest ih =>
    obtain ⟨d, c⟩ := p
    simp only [assign_categories, List.pairwise_cons]
    exact ⟨fun dk hdk => assign_categories_k_lower th (t + c) rest dk hdk, ih (t + c)⟩

theorem assign_categories_mem (th : List Nat) :
    ∀ (t : Nat) (l : List (Nat × Nat)) (d k : Nat),
      (d, k) ∈ assign_categories th t l →
      ∃ cnt total, (d, cnt) ∈ l ∧ t + cnt ≤ total ∧ k = category_k th total := by
  intro t l
  induction l generalizing t with
  | nil => intro d k h; exact absurd h (List.not_mem_nil _)
  | cons p rest ih =>
    obtain ⟨d0, c0⟩ := p
    intro d k h
    simp only [assign_categories] at h
    rcases List.mem_cons.1 h with heq | h'
    · injection heq with h1 h2
      exact ⟨c0, t + c0, by rw [h1]; exact List.mem_cons_self _ _, le_refl _, h2⟩
    · obtain ⟨cnt, total, hmem, hle, hk⟩ := ih (t + c0) d k h'
      exact ⟨cnt, total, List.mem_cons_of_mem _ hmem, by omega, hk⟩

theorem sorted_groups_pairwise (l : List (Nat × Nat)) :
    (sortDescByDegree l).Pairwise degGE :=
  List.sorted_insertionSort degGE l

theorem assign_fst_pairwise {th : List Nat} {t : Nat} {l : List (Nat × Nat)}
    (h : l.Pairwise degGE) :
    (assign_categories th t l).Pairwise (fun a b => b.1 ≤ a.1) := by
  have hfst : ((assign_categories th t l).map Prod.fst).Pairwise
      (fun a b => b ≤ a) := by
    rw [assign_categories_fst]
    exact (List.pairwise_map).2 h
  exact (List.pairwise_map).1 hfst

theorem category_name_ge_four (n : Nat) : category_name (n + 4) = "none" := by
  rw [category_name]
  apply List.getD_eq_default
  simp [node_categories_thresholds_names]

theorem category_rank_category_name (k : Nat) :
    category_rank (category_name k) = min k 4 := by
  rcases k with _ | _ | _ | _ | n
  · decide
  · decide
  · decide
  · decide
  · rw [category_name_ge_four]
    have h4 : category_rank "none" = 4 := by decide
    rw [h4]
    omega

theorem category_name_eq_cube {k : Nat} : category_name k = "cube" ↔ k = 0 := by
  rcases k with _ | _ | _ | _ | n
  · decide
  · decide
  · decide
  · decide
  · rw [category_name_ge_four]
    constructor
    · intro h; exact absurd h (by decide)
    · intro h; omega

theorem category_name_eq_cwl {k : Nat} :
    category_name k = "circle_with_label" ↔ k = 1 := by
  rcases k with _ | _ | _ | _ | n
  · decide
  · decide
  · decide
  · decide
  · rw [category_name_ge_four]
    constructor
    · intro h; exact absurd h (by decide)
    · intro h; omega

theorem category_name_eq_lo {k : Nat} : category_name k = "label_only" ↔ k = 2 := by
  rcases k with _ | _ | _ | _ | n
  · decide
  · decide
  · decide
  · decide
  · rw [category_name_ge_four]
    constructor
    · intro h; exact absurd h (by decide)
    · intro h; omega

theorem category_name_eq_circle {k : Nat} : category_name k = "circle" ↔ k = 3 := by
  rcases k with _ | _ | _ | _ | n
  · decide
  · decide
  · decide
  · decide
  · rw [category_name_ge_four]
    constructor
    · intro h; exact absurd h (by decide)
    · intro h; omega

theorem cats_mem {nodes_degrees : List (Nat × Nat)} {caps : CategoryCapacities}
    {d : Nat} {t : String}
    (h : (d, t) ∈ (separate_nodes_by_categories nodes_degrees caps).1) :
    ∃ k, t = category_name k ∧
      (d, k) ∈ assign_categories (node_categories_thresholds caps) 0
        (sortDescByDegree
          ((invert_tuple_list_to_dict nodes_degrees).map fun kv =>
            (kv.1, kv.2.length))) := by
  simp only [separate_nodes_by_categories, List.mem_map] at h
  obtain ⟨dk, hdk, heq⟩ := h
  obtain ⟨dd, kk⟩ := dk
  injection heq with h1 h2
  subst h1
  subst h2
  exact ⟨kk, rfl, hdk⟩

theorem cats_mem_structure {nodes_degrees : List (Nat × Nat)}
    {caps : CategoryCapacities} {d : Nat} {t : String}
    (h : (d, t) ∈ (separate_nodes_by_categories nodes_degrees caps).1) :
    ∃ k total, 1 ≤ total ∧ t = category_name k ∧
      k = category_k (node_categories_thresholds caps) total := by
  obtain ⟨k, ht, hmem⟩ := cats_mem h
  obtain ⟨cnt, total, hcnt_mem, hle, hk⟩ :=
    assign_categories_mem _ _ _ _ _ hmem
  have hcnt : 1 ≤ cnt := by
    have hmem2 : (d, cnt) ∈ (invert_tuple_list_to_dict nodes_degrees).map
        (fun kv => (kv.1, kv.2.length)) :=
      (List.perm_insertionSort degGE _).subset hcnt_mem
    obtain ⟨kv, hkv, heq⟩ := List.mem_map.1 hmem2
    injection heq with h1 h2
    have hne := invert_values_ne_nil nodes_degrees kv hkv
    rw [← h2]
    exact List.length_pos.2 hne
  exact ⟨k, total, by omega, ht, hk⟩

theorem map_fst_map_pair {γ δ ε : Type} (f : γ → δ → ε) :
    ∀ l : List (γ × δ),
      ((l.map fun kv => (kv.1, f kv.1 kv.2)).map Prod.fst) = l.map Prod.fst := by
  intro l
  induction l with
  | nil => rfl
  | cons p r ih => simp only [List.map_cons, ih]

theorem cats_keys_nodup (nodes_degrees : List (Nat × Nat)) (caps : CategoryCapacities) :
    (((separate_nodes_by_categories nodes_degrees caps).1).map Prod.fst).Nodup := by
  have h1 : ((separate_nodes_by_categories nodes_degrees caps).1).map Prod.fst
      = (sortDescByDegree ((invert_tuple_list_to_dict nodes_degrees).map fun kv =>
          (kv.1, kv.2.length))).map Prod.fst := by
    simp only [separate_nodes_by_categories]
    rw [map_fst_map_pair (fun _ k => category_name k), assign_categories_fst]
  rw [h1]
  have hperm := (List.perm_insertionSort degGE
    ((invert_tuple_list_to_dict nodes_degrees).map fun kv => (kv.1, kv.2.length))).map
    Prod.fst
  rw [map_fst_map_pair (fun _ (v : List Nat) => v.length)] at hperm
  exact hperm.nodup_iff.2 (invert_keys_nodup nodes_degrees)

theorem assoc_nodup_eq {γ : Type} :
    ∀ {l : List (Nat × γ)}, (l.map Prod.fst).Nodup →
      ∀ {d : Nat} {t t' : γ}, (d, t) ∈ l → (d, t') ∈ l → t = t' := by
  intro l
  induction l with
  | nil => intro _ _ _ _ h1; exact absurd h1 (List.not_mem_nil _)
  | cons p rest ih =>
    obtain ⟨pd, pt⟩ := p
    intro hnd d t t' h1 h2
    simp only [List.map_cons, List.nodup_cons] at hnd
    rcases List.mem_cons.1 h1 with heq1 | h1' <;> rcases List.mem_cons.1 h2 with heq2 | h2'
    · injection heq1 with ha1 hb1
      injection heq2 with ha2 hb2
      rw [hb1, hb2]
    · injection heq1 with ha1 hb1
      exact absurd (ha1 ▸ List.mem_map_of_mem Prod.fst h2') hnd.1
    · injection heq2 with ha2 hb2
      exact absurd (ha2 ▸ List.mem_map_of_mem Prod.fst h1') hnd.1
    · exact ih hnd.2 h1' h2'

/-! ## Claims about the categorizer -/

/-- C5: for every input degree sequence and capacity table,
`separate_nodes_by_categories` assigns every node's degree a tier, assigns
every node of a given degree the same tier, and is monotone: a strictly
higher degree never receives a tier of strictly larger priority rank (in the
order cube, circle_with_label, label_only, circle, none). -/
theorem node_categorizer_monotone (nodes_degrees : List (Nat × Nat))
    (caps : CategoryCapacities) :
    (∀ n d, (n, d) ∈ nodes_degrees →
      ∃ t, (d, t) ∈ (separate_nodes_by_categories nodes_degrees caps).1) ∧
    (∀ d t t', (d, t) ∈ (separate_nodes_by_categories nodes_degrees caps).1 →
      (d, t') ∈ (separate_nodes_by_categories nodes_degrees caps).1 → t = t') ∧
    (∀ d1 t1 d2 t2,
      (d1, t1) ∈ (separate_nodes_by_categories nodes_degrees caps).1 →
      (d2, t2) ∈ (separate_nodes_by_categories nodes_degrees caps).1 → d2 < d1 →
      category_rank t1 ≤ category_rank t2) := by
  refine ⟨?_, ?_, ?_⟩
  · intro n d hnd
    obtain ⟨v, hv, hnv⟩ := invert_mem_iff.2 hnd
    have h1 : (d, v.length) ∈ (invert_tuple_list_to_dict nodes_degrees).map
        (fun kv => (kv.1, kv.2.length)) :=
      List.mem_map.2 ⟨(d, v), hv, rfl⟩
    have h2 : (d, v.length) ∈ sortDescByDegree
        ((invert_tuple_list_to_dict nodes_degrees).map
          (fun kv => (kv.1, kv.2.length))) :=
      ((List.perm_insertionSort degGE _).symm).subset h1
    have h3 : d ∈ (assign_categories (node_categories_thresholds caps) 0
        (sortDescByDegree ((invert_tuple_list_to_dict nodes_degrees).map
          (fun kv => (kv.1, kv.2.length))))).map Prod.fst := by
      rw [assign_categories_fst]
      exact List.mem_map_of_mem Prod.fst h2
    obtain ⟨dk, hdk, hfst⟩ := List.mem_map.1 h3
    refine ⟨category_name dk.2, ?_⟩
    simp only [separate_nodes_by_categories, List.mem_map]
    exact ⟨dk, hdk, by rw [← hfst]⟩
  · intro d t t' h1 h2
    exact assoc_nodup_eq (cats_keys_nodup nodes_degrees caps) h1 h2
  · intro d1 t1 d2 t2 h1 h2 hd
    obtain ⟨k1, rfl, hm1⟩ := cats_mem h1
    obtain ⟨k2, rfl, hm2⟩ := cats_mem h2
    have hpw := (@assign_fst_pairwise (node_categories_thresholds caps) 0
        (sortDescByDegree ((invert_tuple_list_to_dict nodes_degrees).map
          (fun kv => (kv.1, kv.2.length))))
        (sorted_groups_pairwise ((invert_tuple_list_to_dict nodes_degrees).map
          (fun kv => (kv.1, kv.2.length))))).and
      (assign_categories_pairwise (node_categories_thresholds caps) 0
        (sortDescByDegree ((invert_tuple_list_to_dict nodes_degrees).map
          (fun kv => (kv.1, kv.2.length)))))
    have hpw2 : (assign_categories (node_categories_thresholds caps) 0
        (sortDescByDegree ((invert_tuple_list_to_dict nodes_degrees).map
          (fun kv => (kv.1, kv.2.length))))).Pairwise
        (fun a b => (b.1 ≤ a.1 ∧ a.2 ≤ b.2) ∨ (a.1 ≤ b.1 ∧ b.2 ≤ a.2)) :=
      hpw.imp fun h => Or.inl h
    have hsym : Symmetric (fun (a b : Nat × Nat) =>
        (b.1 ≤ a.1 ∧ a.2 ≤ b.2) ∨ (a.1 ≤ b.1 ∧ b.2 ≤ a.2)) := by
      intro a b h
      rcases h with h | h
      · exact Or.inr h
      · exact Or.inl h
    have hne : (d1, k1) ≠ (d2, k2) := by
      intro heq
      injection heq with ha _
      omega
    have hrel := hpw2.forall hsym hm1 hm2 hne
    rw [category_rank_category_name, category_rank_category_name]
    rcases hrel with ⟨_, hk⟩ | ⟨hle, _⟩
    · omega
    · omega

/-- Witness for C5 on a concrete degree sequence and capacity table. -/
theorem node_categorizer_monotone_witness :
    (∃ t, (9, t) ∈ (separate_nodes_by_categories [(0, 9), (1, 9), (2, 5), (3, 2)]
      ⟨1, 1, 0, 1⟩).1) ∧
    ("circle_with_label" : String) = "circle_with_label" ∧
    category_rank "circle_with_label" ≤ category_rank "none" :=
  ⟨(node_categorizer_monotone [(0, 9), (1, 9), (2, 5), (3, 2)] ⟨1, 1, 0, 1⟩).1
      0 9 (by decide),
   (node_categorizer_monotone [(0, 9), (1, 9), (2, 5), (3, 2)] ⟨1, 1, 0, 1⟩).2.1
      9 "circle_with_label" "circle_with_label" (by decide) (by decide),
   (node_categorizer_monotone [(0, 9), (1, 9), (2, 5), (3, 2)] ⟨1, 1, 0, 1⟩).2.2
      9 "circle_with_label" 2 "none" (by decide) (by decide) (by decide)⟩

/-- C10: a tier whose configured capacity is 0 never receives any degree
group: its cumulative threshold equals the previous tier's (or is 0 for the
first tier), and the tier index counts thresholds strictly below the running
total, which is always at least 1, so the index is unreachable.  In
particular, under the default configuration (`label_only` capacity 0) no
degree is ever assigned the `label_only` tier. -/
theorem capacity_zero_tier_unused (nodes_degrees : List (Nat × Nat))
    (caps : CategoryCapacities) :
    (caps.cube = 0 → ∀ d,
      (d, "cube") ∉ (separate_nodes_by_categories nodes_degrees caps).1) ∧
    (caps.circle_with_label = 0 → ∀ d,
      (d, "circle_with_label") ∉ (separate_nodes_by_categories nodes_degrees caps).1) ∧
    (caps.label_only = 0 → ∀ d,
      (d, "label_only") ∉ (separate_nodes_by_categories nodes_degrees caps).1) ∧
    (caps.circle = 0 → ∀ d,
      (d, "circle") ∉ (separate_nodes_by_categories nodes_degrees caps).1) ∧
    (∀ d, (d, "label_only") ∉ (separate_nodes_by_categories nodes_degrees
      MAX_NUMBER_OF_NODES_PER_CATEGORY).1) := by
  obtain ⟨c1, c2, c3, c4⟩ := caps
  refine ⟨?_, ?_, ?_, ?_, ?_⟩
  · intro hcap d hmem
    obtain ⟨k, total, htot, ht, hk⟩ := cats_mem_structure hmem
    have hk0 : k = 0 := category_name_eq_cube.1 ht.symm
    subst hk0
    simp only [node_categories_thresholds] at hk
    rw [category_k_four] at hk
    simp only at hcap
    split_ifs at hk <;> omega
  · intro hcap d hmem
    obtain ⟨k, total, htot, ht, hk⟩ := cats_mem_structure hmem
    have hk1 : k = 1 := category_name_eq_cwl.1 ht.symm
    subst hk1
    simp only [node_categories_thresholds] at hk
    rw [category_k_four] at hk
    simp only at hcap
    split_ifs at hk <;> omega
  · intro hcap d hmem
    obtain ⟨k, total, htot, ht, hk⟩ := cats_mem_structure hmem
    have hk2 : k = 2 := category_name_eq_lo.1 ht.symm
    subst hk2
    simp only [node_categories_thresholds] at hk
    rw [category_k_four] at hk
    simp only at hcap
    split_ifs at hk <;> omega
  · intro hcap d hmem
    obtain ⟨k, total, htot, ht, hk⟩ := cats_mem_structure hmem
    have hk3 : k = 3 := category_name_eq_circle.1 ht.symm
    subst hk3
    simp only [node_categories_thresholds] at hk
    rw [category_k_four] at hk
    simp only at hcap
    split_ifs at hk <;> omega
  · intro d hmem
    obtain ⟨k, total, htot, ht, hk⟩ := cats_mem_structure hmem
    have hk2 : k = 2 := category_name_eq_lo.1 ht.symm
    subst hk2
    simp only [MAX_NUMBER_OF_NODES_PER_CATEGORY, node_categories_thresholds] at hk
    rw [category_k_four] at hk
    split_ifs at hk <;> omega

/-- Witness for C10 with an all-zero capacity table and with the default
configuration. -/
theorem capacity_zero_tier_unused_witness :
    (∀ d, (d, "cube") ∉ (separate_nodes_by_categories [(0, 1)] ⟨0, 0, 0, 0⟩).1) ∧
    (∀ d, (d, "label_only") ∉ (separate_nodes_by_categories [(0, 1)]
      MAX_NUMBER_OF_NODES_PER_CATEGORY).1) :=
  ⟨(capacity_zero_tier_unused [(0, 1)] ⟨0, 0, 0, 0⟩).1 rfl,
   (capacity_zero_tier_unused [(0, 1)] MAX_NUMBER_OF_NODES_PER_CATEGORY).2.2.2.2⟩

/-! ## The separator pass of the cube renderer -/

theorem mem_ite_singleton {α : Type} {p : Prop} [Decidable p] {a b : α} :
    (a ∈ if p then [b] else []) ↔ p ∧ a = b := by
  by_cases h : p
  · simp [h]
  · simp [h]

theorem mem_face_separators_vertical {mode : String} {order : Nat}
    {face : Nat → Nat → Int} {x y : Nat} (hx : x + 1 < order) (hy : y < order) :
    (((x+1, y), (x+1, y+1)) ∈ face_separators mode order face)
      ↔ (face y (x+1) = 0 ∨ face y (x+1) ≠ face y x) := by
  constructor
  · intro hmem
    simp only [face_separators, List.mem_flatMap, List.mem_range,
      List.mem_append] at hmem
    obtain ⟨y0, hy0, x0, hx0, hseg⟩ := hmem
    rcases hseg with hseg | hseg
    · rw [mem_ite_singleton] at hseg
      obtain ⟨⟨_, hcond⟩, heq⟩ := hseg
      simp only [Prod.mk.injEq] at heq
      obtain ⟨⟨hx1, hy1⟩, _⟩ := heq
      obtain rfl : x0 = x := by omega
      obtain rfl : y0 = y := hy1.symm
      exact hcond
    · rw [mem_ite_singleton] at hseg
      obtain ⟨_, heq⟩ := hseg
      simp only [Prod.mk.injEq] at heq
      omega
  · intro hcond
    refine List.mem_flatMap.2 ⟨y, List.mem_range.2 hy, ?_⟩
    refine List.mem_flatMap.2 ⟨x, List.mem_range.2 (by omega), ?_⟩
    refine List.mem_append.2 (Or.inl ?_)
    rw [mem_ite_singleton]
    exact ⟨⟨by omega, hcond⟩, rfl⟩

theorem mem_face_separators_horizontal {mode : String} {order : Nat}
    {face : Nat → Nat → Int} {x y : Nat} (hx : x < order) (hy : y + 1 < order) :
    (((x, y+1), (x+1, y+1)) ∈ face_separators mode order face)
      ↔ (face (y+1) x = 0 ∨ face (y+1) x ≠ face y x) := by
  constructor
  · intro hmem
    simp only [face_separators, List.mem_flatMap, List.mem_range,
      List.mem_append] at hmem
    obtain ⟨y0, hy0, x0, hx0, hseg⟩ := hmem
    rcases hseg with hseg | hseg
    · rw [mem_ite_singleton] at hseg
      obtain ⟨_, heq⟩ := hseg
      simp only [Prod.mk.injEq] at heq
      omega
    · rw [mem_ite_singleton] at hseg
      obtain ⟨⟨_, hcond⟩, heq⟩ := hseg
      simp only [Prod.mk.injEq] at heq
      obtain ⟨⟨hx1, hy1⟩, _⟩ := heq
      obtain rfl : x0 = x := hx1.symm
      obtain rfl : y0 = y := by omega
      exact hcond
  · intro hcond
    refine List.mem_flatMap.2 ⟨y, List.mem_range.2 (by omega), ?_⟩
    refine List.mem_flatMap.2 ⟨x, List.mem_range.2 hx, ?_⟩
    refine List.mem_append.2 (Or.inr ?_)
    rw [mem_ite_singleton]
    exact ⟨⟨by omega, hcond⟩, rfl⟩

/-- C6: in the separator pass of `draw_svg_cube`, for every face grid, order
and color mode, an internal separator line is drawn between two horizontally
or vertically adjacent cells exactly when the two labels differ or the
neighbour cell's label is 0; two adjacent cells with the same nonzero label
get no separator, and a cell labelled 0 has a separator toward every
neighbour. -/
theorem cube_renderer_separators (color_mode : String) (cube_order : Nat)
    (face : Nat → Nat → Int) (x y : Nat) :
    (x + 1 < cube_order → y < cube_order →
      ((((x+1, y), (x+1, y+1)) ∈ face_separators color_mode cube_order face)
        ↔ (face y (x+1) ≠ face y x ∨ face y (x+1) = 0))) ∧
    (x < cube_order → y + 1 < cube_order →
      ((((x, y+1), (x+1, y+1)) ∈ face_separators color_mode cube_order face)
        ↔ (face (y+1) x ≠ face y x ∨ face (y+1) x = 0))) ∧
    (x + 1 < cube_order → y < cube_order → face y (x+1) = face y x →
      face y x ≠ 0 →
      ((x+1, y), (x+1, y+1)) ∉ face_separators color_mode cube_order face) ∧
    (x < cube_order → y + 1 < cube_order → face (y+1) x = face y x →
      face y x ≠ 0 →
      ((x, y+1), (x+1, y+1)) ∉ face_separators color_mode cube_order face) ∧
    (face y x = 0 →
      (x + 1 < cube_order → y < cube_order →
        ((x+1, y), (x+1, y+1)) ∈ face_separators color_mode cube_order face) ∧
      (1 ≤ x → x < cube_order → y < cube_order →
        ((x, y), (x, y+1)) ∈ face_separators color_mode cube_order face) ∧
      (x < cube_order → y + 1 < cube_order →
        ((x, y+1), (x+1, y+1)) ∈ face_separators color_mode cube_order face) ∧
      (1 ≤ y → x < cube_order → y < cube_order →
        ((x, y), (x+1, y)) ∈ face_separators color_mode cube_order face)) := by
  refine ⟨?_, ?_, ?_, ?_, ?_⟩
  · intro hx hy
    rw [mem_face_separators_vertical hx hy]
    tauto
  · intro hx hy
    rw [mem_face_separators_horizontal hx hy]
    tauto
  · intro hx hy heq hnz hmem
    rcases (mem_face_separators_vertical hx hy).1 hmem with h0 | hne
    · rw [heq] at h0
      exact hnz h0
    · exact hne heq
  · intro hx hy heq hnz hmem
    rcases (mem_face_separators_horizontal hx hy).1 hmem with h0 | hne
    · rw [heq] at h0
      exact hnz h0
    · exact hne heq
  · intro hzero
    refine ⟨?_, ?_, ?_, ?_⟩
    · intro hx hy
      apply (mem_face_separators_vertical hx hy).2
      by_cases h0 : face y (x+1) = 0
      · exact Or.inl h0
      · refine Or.inr ?_
        rw [hzero]
        exact h0
    · intro hx1 hx hy
      obtain ⟨x', rfl⟩ : ∃ x', x = x' + 1 := ⟨x - 1, by omega⟩
      apply (mem_face_separators_vertical (by omega) hy).2
      exact Or.inl hzero
    · intro hx hy
      apply (mem_face_separators_horizontal hx hy).2
      by_cases h0 : face (y+1) x = 0
      · exact Or.inl h0
      · refine Or.inr ?_
        rw [hzero]
        exact h0
    · intro hy1 hx hy
      obtain ⟨y', rfl⟩ : ∃ y', y = y' + 1 := ⟨y - 1, by omega⟩
      apply (mem_face_separators_horizontal hx (by omega)).2
      exact Or.inl hzero

/-- Witness for C6 on a concrete 3x3 face grid. -/
theorem cube_renderer_separators_witness :
    ((((1, 0), (1, 1)) ∈ face_separators "center" 3 demo_face)
      ↔ (demo_face 0 1 ≠ demo_face 0 0 ∨ demo_face 0 1 = 0)) ∧
    (((1, 0), (1, 1)) ∈ face_separators "center" 3 demo_face) :=
  ⟨(cube_renderer_separators "center" 3 demo_face 0 0).1 (by omega) (by omega),
   ((cube_renderer_separators "center" 3 demo_face 0 0).2.2.2.2
     (by decide)).1 (by omega) (by omega)⟩

/-! ## Claims about the edge stylist -/

/-- C7: in `process_edges`, every edge whose label is found verbatim in the
six-entry `FACE_COLORS` table receives that table's colour and keeps its
literal label when labels are shown; every edge whose label is not in the
table receives the fixed fallback colour and, when labels are shown, is
displayed with the single wildcard glyph `"*"` instead of its literal
label. -/
theorem edge_stylist_colors (edge_labels : List ((Nat × Nat) × String))
    (show_labels show_arrows : Bool) (e : Nat × Nat) (lab : String)
    (hmem : (e, lab) ∈ edge_labels) :
    ((e, mk_edge_attributes lab show_labels show_arrows)
      ∈ process_edges edge_labels show_labels show_arrows) ∧
    (∀ c, FACE_COLORS.lookup lab = some c →
      (mk_edge_attributes lab show_labels show_arrows).color = c ∧
      (show_labels = true →
        (mk_edge_attributes lab show_labels show_arrows).label = some lab)) ∧
    (FACE_COLORS.lookup lab = none →
      (mk_edge_attributes lab show_labels show_arrows).color
        = UNKNOWN_FACE_EDGE_COLOR ∧
      (show_labels = true →
        (mk_edge_attributes lab show_labels show_arrows).label = some "*")) := by
  refine ⟨?_, ?_, ?_⟩
  · obtain ⟨v, hv, hev⟩ := invert_mem_iff.2 hmem
    simp only [process_edges, List.mem_flatMap]
    exact ⟨(lab, v), hv, List.mem_map.2 ⟨e, hev, rfl⟩⟩
  · intro c hc
    refine ⟨by simp [mk_edge_attributes, hc], fun hs => ?_⟩
    simp [mk_edge_attributes, hc, hs]
  · intro hc
    refine ⟨by simp [mk_edge_attributes, hc], fun hs => ?_⟩
    simp [mk_edge_attributes, hc, hs]

/-- Witness for C7: a single-face label `"L"` and the composite `"LF"`. -/
theorem edge_stylist_colors_witness :
    (((0, 1), mk_edge_attributes "L" true true)
      ∈ process_edges [((0, 1), "L"), ((1, 2), "LF")] true true) ∧
    (mk_edge_attributes "L" true true).color = "green" ∧
    (mk_edge_attributes "LF" true true).color = UNKNOWN_FACE_EDGE_COLOR ∧
    (mk_edge_attributes "LF" true true).label = some "*" :=
  ⟨(edge_stylist_colors [((0, 1), "L"), ((1, 2), "LF")] true true (0, 1) "L"
      (by decide)).1,
   ((edge_stylist_colors [((0, 1), "L"), ((1, 2), "LF")] true true (0, 1) "L"
      (by decide)).2.1 "green" (by decide)).1,
   ((edge_stylist_colors [((0, 1), "L"), ((1, 2), "LF")] true true (1, 2) "LF"
      (by decide)).2.2 (by decide)).1,
   ((edge_stylist_colors [((0, 1), "L"), ((1, 2), "LF")] true true (1, 2) "LF"
      (by decide)).2.2 (by decide)).2 rfl⟩

/-! ## Claims about the legend index -/

theorem legend_column_size_pos (n : Nat) : 1 ≤ legend_column_size n := by
  simp only [legend_column_size]
  by_cases h : n / cube_index_rows = 0
  · rw [if_pos h]
  · rw [if_neg h]
    exact Nat.pos_of_ne_zero h

theorem chunkListAux_length {α : Type} (cs : Nat) (hcs : 1 ≤ cs) :
    ∀ (fuel : Nat) (l : List α), l.length ≤ fuel →
      (chunkListAux cs fuel l).length = (l.length + cs - 1) / cs := by
  intro fuel
  induction fuel with
  | zero =>
    intro l hl
    obtain rfl : l = [] := List.eq_nil_of_length_eq_zero (by omega)
    simp only [chunkListAux, List.length_nil]
    symm
    exact Nat.div_eq_of_lt (by omega)
  | succ fuel ih =>
    intro l hl
    rcases l with _ | ⟨a, t⟩
    · simp only [chunkListAux, List.length_nil]
      symm
      exact Nat.div_eq_of_lt (by omega)
    · simp only [List.length_cons] at hl
      simp only [chunkListAux, List.length_cons]
      have hdlen : ((a :: t).drop cs).length = t.length + 1 - cs := by
        rw [List.length_drop, List.length_cons]
      rw [ih ((a :: t).drop cs) (by rw [hdlen]; omega)]
      rw [hdlen]
      by_cases hle : t.length + 1 ≤ cs
      · have hA : (t.length + 1 - cs + cs - 1) / cs = 0 :=
          Nat.div_eq_of_lt (by omega)
        have hB : (t.length + 1 + cs - 1) / cs = 1 :=
          Nat.div_eq_of_lt_le (by omega) (by omega)
        omega
      · have h2 : t.length + 1 + cs - 1 = (t.length + 1 - cs + cs - 1) + 1 * cs := by
          omega
        have hC : (t.length + 1 + cs - 1) / cs
            = (t.length + 1 - cs + cs - 1) / cs + 1 := by
          rw [h2, Nat.add_mul_div_right _ _ (by omega : 0 < cs)]
        omega

theorem chunkList_length {α : Type} (cs : Nat) (hcs : 1 ≤ cs) (l : List α) :
    (chunkList cs l).length = (l.length + cs - 1) / cs :=
  chunkListAux_length cs hcs l.length l (le_refl _)

/-- C8 (amended): the legend index table is built exactly when the number of
`circle_with_label` nodes is strictly positive and at most the configured
maximum (200); when built, its thumbnails are sliced into rows of
`column_size = max(1, n / 8)` nodes, which yields
`⌈n / column_size⌉` rows — not a fixed 8 rows. -/
theorem legend_index_condition_and_rows (cats : List (Nat × String))
    (inv : List (Nat × List Nat)) :
    (legend_index_built (all_nodes_for_index cats inv).length = true
      ↔ (0 < (all_nodes_for_index cats inv).length ∧
         (all_nodes_for_index cats inv).length ≤ 200)) ∧
    ((legend_index_rows (all_nodes_for_index cats inv)).length
      = ((all_nodes_for_index cats inv).length
          + legend_column_size (all_nodes_for_index cats inv).length - 1)
        / legend_column_size (all_nodes_for_index cats inv).length) := by
  constructor
  · simp [legend_index_built, max_allowed_index_size]
  · exact chunkList_length _ (legend_column_size_pos _) _

/-- C8 counterexample: with 3 `circle_with_label` nodes the index table is
built, but its thumbnails occupy 3 rows, not the configured
`cube_index_rows = 8`: `column_size = max(1, 3 / 8) = 1` and the slicing
yields 3 single-node rows. -/
theorem legend_index_rows_counterexample :
    legend_index_built (all_nodes_for_index [(5, "circle_with_label")]
      [(5, [3, 1, 2])]).length = true ∧
    (legend_index_rows (all_nodes_for_index [(5, "circle_with_label")]
      [(5, [3, 1, 2])])).length = 3 ∧
    cube_index_rows = 8 ∧ (3 : Nat) ≠ 8 :=
  ⟨by decide, by decide, rfl, by decide⟩
